import Mathlib

/-!
Repeating-key XOR cryptanalysis: Hamming distance, blocking, key-length estimation.

A shallow embedding of `hammingDistance/hammingDistance.go` and of the blocking,
scoring, key-length estimation, cipher and key-recovery functions of `set1.go`.

Modelling conventions.

* A Go `byte` is a `Fin 256`; `^` on bytes is `^^^` on `Fin 256`.
* A Go `[]byte` is a `List Byte`, a `[][]byte` is a `List (List Byte)`. Slices are
  modelled by their contents. The only bytes `splitBlocks` may write into a backing
  array it shares with its caller are the zero bytes of the padding, placed after the
  last byte of `data`, so the contents of slices handed out earlier do not change.
* A Go `int` is an `Int`. The integers the modelled code computes are bounded by its
  integer arguments and by small multiples of the lengths of slices held in memory,
  so the 64-bit wrap-around is never reached and is not modelled. `/` and `%` on `int` truncate toward zero
  (`Int.tdiv`, `Int.tmod`).
* A run-time panic (integer division by zero, `make` with a negative length, an index
  out of range) is the result `none`.
* `float32` values are finite here (no division by zero is reached), so they are
  modelled by the rationals they denote; the conversion `float32(i)` and the rounded
  division are the two fields of a `Float32Arith`, over which the definitions are
  parametric. `exactArith` is the instance without rounding.
* `chiSquareEnglish` adds its `float32` terms in the order in which Go iterates over a
  map, which is not specified, so two calls on the same text need not return the same
  value. The definition `chiSquareEnglish` is the sum in exact rational arithmetic,
  which does not depend on that order. `bruteForceSingleByteWith` takes the value that
  each of its calls of `chiSquareEnglish` returns as a parameter; `bruteForceSingleByte`
  and `bruteForceKey` are the instances in which every call returns the exact sum.
* `bruteForceKey` writes the decoded bytes into the blocks it got from
  `findBlockSize`; the slices it returns are built by `make` and `append` after all
  writes, so they are modelled by their final contents.
-/

set_option maxRecDepth 100000

namespace CryptoPals

/-- A Go `byte`. -/
abbrev Byte := Fin 256

/-! ## hammingDistance/hammingDistance.go -/

/-- The table `lookupTable` of `countSetBits`, row by row as in the source. -/
def lookupTable : List Int := [
  0, 1, 1, 2, 1, 2, 2, 3,
  1, 2, 2, 3, 2, 3, 3, 4,
  1, 2, 2, 3, 2, 3, 3, 4,
  2, 3, 3, 4, 3, 4, 4, 5,
  1, 2, 2, 3, 2, 3, 3, 4,
  2, 3, 3, 4, 3, 4, 4, 5,
  2, 3, 3, 4, 3, 4, 4, 5,
  3, 4, 4, 5, 4, 5, 5, 6,
  1, 2, 2, 3, 2, 3, 3, 4,
  2, 3, 3, 4, 3, 4, 4, 5,
  2, 3, 3, 4, 3, 4, 4, 5,
  3, 4, 4, 5, 4, 5, 5, 6,
  2, 3, 3, 4, 3, 4, 4, 5,
  3, 4, 4, 5, 4, 5, 5, 6,
  3, 4, 4, 5, 4, 5, 5, 6,
  4, 5, 5, 6, 5, 6, 6, 7,
  1, 2, 2, 3, 2, 3, 3, 4,
  2, 3, 3, 4, 3, 4, 4, 5,
  2, 3, 3, 4, 3, 4, 4, 5,
  3, 4, 4, 5, 4, 5, 5, 6,
  2, 3, 3, 4, 3, 4, 4, 5,
  3, 4, 4, 5, 4, 5, 5, 6,
  3, 4, 4, 5, 4, 5, 5, 6,
  4, 5, 5, 6, 5, 6, 6, 7,
  2, 3, 3, 4, 3, 4, 4, 5,
  3, 4, 4, 5, 4, 5, 5, 6,
  3, 4, 4, 5, 4, 5, 5, 6,
  4, 5, 5, 6, 5, 6, 6, 7,
  3, 4, 4, 5, 4, 5, 5, 6,
  4, 5, 5, 6, 5, 6, 6, 7,
  4, 5, 5, 6, 5, 6, 6, 7,
  5, 6, 6, 7, 6, 7, 7, 8]

/-- Go function `countSetBits(value byte) int`: `lookupTable[int(value)]`. The table has 256
entries, so the index is always in range. -/
def countSetBits (value : Byte) : Int :=
  lookupTable.get (Fin.cast (by rfl) value)

/-- Go function `Distance(a byte, b byte) int`: `countSetBits(a ^ b)`. -/
def Distance (a b : Byte) : Int :=
  countSetBits (a ^^^ b)

/-- Go function `CalculateDistance(a []byte, b []byte) int`: `-1` when the lengths differ,
otherwise the loop `for i := range a { totalDist += Distance(a[i], b[i]) }`.
Inside the loop `i < len(a) = len(b)`, so neither index is out of range. -/
def CalculateDistance (a b : List Byte) : Int :=
  if a.length ≠ b.length then
    -1
  else
    (List.range a.length).foldl
      (fun totalDist i => totalDist + Distance (a.getD i 0) (b.getD i 0)) 0

/-! ## set1.go: blocking -/

/-- The slice expression `data[start:end]` for `0 ≤ start ≤ end ≤ len(data)`. -/
def slice (data : List Byte) (start stop : Int) : List Byte :=
  (data.drop start.toNat).take (stop - start).toNat

/-- Go function `splitBlocks(data []byte, blockSize int) [][]byte`.

`len(data)%blockSize` panics for `blockSize = 0`; `make` panics for a negative
length. After the padding `numBlocks * blockSize = len(data)`, so for every
`i < numBlocks` the slice `data[i*blockSize:(i+1)*blockSize]` is in range. -/
def splitBlocks (data : List Byte) (blockSize : Int) : Option (List (List Byte)) :=
  if blockSize = 0 then none
  else
    let r := Int.tmod data.length blockSize
    if r ≠ 0 ∧ blockSize - r < 0 then none
    else
      let data := if r ≠ 0 then data ++ List.replicate (blockSize - r).toNat (0 : Byte) else data
      let numBlocks := Int.tdiv data.length blockSize
      if numBlocks < 0 then none
      else
        some ((List.range numBlocks.toNat).map
          (fun (i : Nat) => slice data ((i : Int) * blockSize) (((i : Int) + 1) * blockSize)))

/-! ## set1.go: key-length estimation -/

/-- The index expression `data[i]` with an `int` index: a panic when out of range. -/
def index? {α : Type} (data : List α) (i : Int) : Option α :=
  if i < 0 then none else data[i.toNat]?

/-- The loop `for i := 1; i <= accuracy; i++` of `checkAvgHamming`, entered with the
number of iterations still to run, the loop variable `i` and the accumulator
`hammingDist`. `% len(data)` panics for an empty `data`. -/
def checkAvgHammingLoop (data : List (List Byte)) (spread : Int) :
    Nat → Int → Int → Option Int
  | 0, _, hammingDist => some hammingDist
  | n + 1, i, hammingDist =>
    if data.length = 0 then none
    else
      let index1 := Int.tmod (i * spread) data.length
      let index2 := Int.tmod ((i + 1) * spread) data.length
      match index? data index1, index? data index2 with
      | some x, some y =>
        checkAvgHammingLoop data spread n (i + 1) (hammingDist + CalculateDistance x y)
      | _, _ => none

/-- Go function `checkAvgHamming(data [][]byte, accuracy int) int`. The loop runs `accuracy`
times when `1 ≤ accuracy` and not at all otherwise; the two `/` are integer
divisions. -/
def checkAvgHamming (data : List (List Byte)) (accuracy : Int) : Option Int :=
  if accuracy = 0 then none
  else
    let spread := Int.tdiv data.length accuracy
    (checkAvgHammingLoop data spread accuracy.toNat 1 0).map
      (fun hammingDist => Int.tdiv hammingDist accuracy)

/-- The `float32` operations of `findBlockSize`, on the rationals that finite
`float32` values denote: `ofInt i` is the conversion `float32(i)`, `div x y` the
(rounded) quotient `x / y`. -/
structure Float32Arith where
  /-- The conversion `float32(i)`. -/
  ofInt : Int → ℚ
  /-- The division of two `float32` values. -/
  div : ℚ → ℚ → ℚ

/-- Arithmetic without rounding. -/
def exactArith : Float32Arith where
  ofInt := fun i => (i : ℚ)
  div := fun x y => x / y

/-- The expression `float32(checkAvgHamming(blocks, 10)) / float32(minKeyLength)` that
`findBlockSize` evaluates for a candidate key length and its blocks. -/
def blockScore (F : Float32Arith) (blocks : List (List Byte)) (keyLength : Int) :
    Option ℚ :=
  (checkAvgHamming blocks 10).map (fun avg => F.div (F.ofInt avg) (F.ofInt keyLength))

/-- The loop `for ; minKeyLength <= maxKeyLength; minKeyLength++` of `findBlockSize`,
entered with the number of iterations still to run, the loop variable
`minKeyLength` and the variables `minHammingDist`, `bestKeySize`, `bestBlocks`. -/
def findBlockSizeLoop (F : Float32Arith) (cipherText : List Byte) :
    Nat → Int → ℚ × Int × List (List Byte) → Option (ℚ × Int × List (List Byte))
  | 0, _, best => some best
  | n + 1, minKeyLength, (minHammingDist, bestKeySize, bestBlocks) =>
    match splitBlocks cipherText minKeyLength with
    | none => none
    | some blocks =>
      match blockScore F blocks minKeyLength with
      | none => none
      | some hammingDist =>
        if hammingDist ≤ minHammingDist then
          findBlockSizeLoop F cipherText n (minKeyLength + 1) (hammingDist, minKeyLength, blocks)
        else
          findBlockSizeLoop F cipherText n (minKeyLength + 1)
            (minHammingDist, bestKeySize, bestBlocks)

/-- Go function
`findBlockSize(cipherText []byte, minKeyLength int, maxKeyLength int) (int, [][]byte)`.
The loop runs for the candidates `minKeyLength + 1, ..., maxKeyLength`. -/
def findBlockSize (F : Float32Arith) (cipherText : List Byte)
    (minKeyLength maxKeyLength : Int) : Option (Int × List (List Byte)) :=
  match splitBlocks cipherText minKeyLength with
  | none => none
  | some blocks =>
    match blockScore F blocks minKeyLength with
    | none => none
    | some minHammingDist =>
      (findBlockSizeLoop F cipherText (maxKeyLength - minKeyLength).toNat (minKeyLength + 1)
        (minHammingDist, minKeyLength, blocks)).map (fun best => (best.2.1, best.2.2))

/-! ## set1.go: English scoring -/

/-- Go function `countBytes(data []byte) map[byte]int`: the map as the list of its
entries, one per byte value that occurs in `data`, with the number of occurrences. -/
def countBytes (data : List Byte) : List (Byte × Int) :=
  data.dedup.map (fun character => (character, (data.count character : Int)))

/-- The map literal `distribution` of `chiSquareEnglish`; a key that is not in the map
reads as `0`. -/
def distribution (key : Byte) : ℚ :=
  match key.val with
  | 101 => 0.094498
  | 114 => 0.046229
  | 103 => 0.014805
  | 105 => 0.054841
  | 111 => 0.057409
  | 120 => 0.001435
  | 106 => 0.001209
  | 116 => 0.069873
  | 97 => 0.060733
  | 115 => 0.049402
  | 99 => 0.023115
  | 121 => 0.013068
  | 113 => 0.000831
  | 110 => 0.053557
  | 104 => 0.041470
  | 100 => 0.030140
  | 117 => 0.020471
  | 112 => 0.015108
  | 98 => 0.011633
  | 109 => 0.019111
  | 119 => 0.014503
  | 32 => 0.120861
  | 108 => 0.031273
  | 102 => 0.017374
  | 118 => 0.007478
  | 107 => 0.005061
  | 122 => 0.000680
  | _ => 0

/-- The values of `diff` and `expected` that the body of the loop of
`chiSquareEnglish` holds, for the map entry `key ↦ val` and a text of length `len`,
when it reaches `chiDist += (diff * diff) / expected`. `key + 0x20` is byte
addition and wraps around. -/
def chiSquareParts (len : Nat) (key : Byte) (val : Int) : ℚ × ℚ :=
  let expected : ℚ := distribution key * (len : ℚ)
  let diff : ℚ := (val : ℚ) - expected
  if distribution key = 0 then
    if distribution (key + 0x20) = 0 then
      let expected : ℚ := 0.0005 * (len : ℚ)
      let diff : ℚ := (val : ℚ) - expected
      (diff, expected)
    else
      let key := key + 0x20
      let expected : ℚ := distribution key * (len : ℚ)
      let diff : ℚ := ((val : ℚ) - expected) + 1
      (diff, expected)
  else
    (diff, expected)

/-- The term `(diff * diff) / expected` that `chiSquareEnglish` adds for one map
entry. -/
def chiSquareTerm (len : Nat) (key : Byte) (val : Int) : ℚ :=
  let parts := chiSquareParts len key val
  (parts.1 * parts.1) / parts.2

/-- Go function `chiSquareEnglish(plainText []byte) float32`, in exact arithmetic: the
loop over the entries of `countBytes(plainText)`. -/
def chiSquareEnglish (plainText : List Byte) : ℚ :=
  (countBytes plainText).foldl
    (fun chiDist entry => chiDist + chiSquareTerm plainText.length entry.1 entry.2) 0

/-! ## set1.go: ciphers and key recovery -/

/-- Go function `blockCipher(data []byte, key []byte) ([]byte, error)`; the error
returned is always `nil`. `len(data)%len(key)` panics for an empty key. Inside the
loop `i < len(data)` and `i%len(key) < len(key)`, so neither index is out of range. -/
def blockCipher (data key : List Byte) : Option (List Byte) :=
  if key.length = 0 then none
  else
    let data :=
      if data.length % key.length ≠ 0 then
        data ++ List.replicate (key.length - data.length % key.length) (0 : Byte)
      else data
    some ((List.range data.length).map
      (fun i => data.getD i 0 ^^^ key.getD (i % key.length) 0))

/-- The loop `for ; key <= 0x80; key += 0x01` of `bruteForceSingleByte`, entered with
the loop variable `key` and the variables `bestPlaintext`, `bestKey`,
`minChiSquare`; the first argument bounds the number of iterations, and the result
is `none` when the bound is used up before the loop ends.

`score n text` is the `float32` value that the `n`-th call of `chiSquareEnglish` made
by `bruteForceSingleByte` returns for `text`: the call before the loop is call 0 and
the call in the iteration of `key` is call `key`. The value of a call is finite
(every divisor is positive) and is the sum of the terms of the text, rounded, in the
order in which Go iterates over the map in that call, so two calls on the same text
need not return the same value. -/
def bruteForceSingleByteLoopWith (score : Nat → List Byte → ℚ) (cipherText : List Byte) :
    Nat → Byte → List Byte × Byte × ℚ → Option (List Byte × Byte × ℚ)
  | 0, _, _ => none
  | fuel + 1, key, (bestPlaintext, bestKey, minChiSquare) =>
    if key ≤ 0x80 then
      match blockCipher cipherText [key] with
      | none => none
      | some plainText =>
        let chiSquare := score key.val plainText
        if chiSquare < minChiSquare then
          bruteForceSingleByteLoopWith score cipherText fuel (key + 0x01)
            (plainText, key, chiSquare)
        else
          bruteForceSingleByteLoopWith score cipherText fuel (key + 0x01)
            (bestPlaintext, bestKey, minChiSquare)
    else
      some (bestPlaintext, bestKey, minChiSquare)

/-- Go function `bruteForceSingleByte(cipherText []byte) ([]byte, byte, float32)`, for
the values `score` that its calls of `chiSquareEnglish` return. The loop ends after
128 iterations, when `key` is `0x81`. -/
def bruteForceSingleByteWith (score : Nat → List Byte → ℚ) (cipherText : List Byte) :
    Option (List Byte × Byte × ℚ) :=
  match blockCipher cipherText [0x01] with
  | none => none
  | some bestPlaintext =>
    bruteForceSingleByteLoopWith score cipherText 256 0x01
      (bestPlaintext, 0x01, score 0 bestPlaintext)

/-- The function `bruteForceSingleByte` when every call of `chiSquareEnglish` returns
the exact sum. -/
def bruteForceSingleByte (cipherText : List Byte) : Option (List Byte × Byte × ℚ) :=
  bruteForceSingleByteWith (fun _ => chiSquareEnglish) cipherText

/-- The inner loop `for j, block := range bestBlocks { group[j] = block[i] }` of the
transposition: the `i`-th byte of every block, a panic when a block is too short. -/
def column? (i : Nat) : List (List Byte) → Option (List Byte)
  | [] => some []
  | block :: rest =>
    match block[i]?, column? i rest with
    | some b, some group => some (b :: group)
    | _, _ => none

/-- The loop `for i := 0; i < len(bestBlocks[0]); i++` of the transposition, entered
with the number of iterations still to run and the loop variable `i`. -/
def transposeLoop (bestBlocks : List (List Byte)) : Nat → Nat → Option (List (List Byte))
  | 0, _ => some []
  | n + 1, i =>
    match column? i bestBlocks, transposeLoop bestBlocks n (i + 1) with
    | some group, some groups => some (group :: groups)
    | _, _ => none

/-- The loop `for i, group := range singleByteGroups` that replaces every group by its
decoding and appends the group key to `key`: the decoded groups and the bytes
appended, in order. -/
def solveGroups : List (List Byte) → Option (List (List Byte) × List Byte)
  | [] => some ([], [])
  | group :: rest =>
    match bruteForceSingleByte group, solveGroups rest with
    | some (plain, groupKey, _), some (plains, keys) => some (plain :: plains, groupKey :: keys)
    | _, _ => none

/-- The inner loop `for j, block := range bestBlocks { block[i] = group[j] }` of the
inverse transposition, on the blocks from index `j` on and the bytes of `group`
from index `j` on; a panic when `i` is outside a block or `group` is too short. -/
def writeColumn? (i : Nat) : List (List Byte) → List Byte → Option (List (List Byte))
  | [], _ => some []
  | _ :: _, [] => none
  | block :: rest, b :: group =>
    if i < block.length then
      (writeColumn? i rest group).map (fun blocks => block.set i b :: blocks)
    else none

/-- The loop `for i, group := range singleByteGroups` of the inverse transposition,
entered with the loop variable `i`, the groups from index `i` on and the current
contents of `bestBlocks`. -/
def untransposeLoop : Nat → List (List Byte) → List (List Byte) → Option (List (List Byte))
  | _, [], bestBlocks => some bestBlocks
  | i, group :: groups, bestBlocks =>
    match writeColumn? i bestBlocks group with
    | none => none
    | some bestBlocks => untransposeLoop (i + 1) groups bestBlocks

/-- Go function
`bruteForceKey(cipherText []byte, minKeyLength int, maxKeyLength int) ([]byte, []byte)`:
the pair `(plainText, key)`. `key` starts as `make([]byte, len(singleByteGroups))` and
`plainText` as `make([]byte, len(cipherText))`, both are then extended by `append`.
`bestBlocks[0]` panics for an empty `bestBlocks`, and `singleByteGroups[0]`, printed
after the groups are decoded, for an empty `singleByteGroups`. -/
def bruteForceKey (F : Float32Arith) (cipherText : List Byte)
    (minKeyLength maxKeyLength : Int) : Option (List Byte × List Byte) :=
  match findBlockSize F cipherText minKeyLength maxKeyLength with
  | none => none
  | some (_, bestBlocks) =>
    match bestBlocks with
    | [] => none
    | block0 :: _ =>
      match transposeLoop bestBlocks block0.length 0 with
      | none => none
      | some singleByteGroups =>
        match solveGroups singleByteGroups with
        | none => none
        | some (decoded, groupKeys) =>
          if decoded.length = 0 then none
          else
            match untransposeLoop 0 decoded bestBlocks with
            | none => none
            | some bestBlocks =>
              some (List.replicate cipherText.length (0 : Byte) ++ bestBlocks.flatten,
                List.replicate singleByteGroups.length (0 : Byte) ++ groupKeys)

/-! ## Reference notions the claims are compared with -/

/-- The population count of a byte: the number of bit positions `0..7` at which
the byte has a 1. -/
def popCount (v : Byte) : Nat :=
  ((List.range 8).filter (fun i => v.val.testBit i)).length

/-- The distance `checkAvgHamming` samples at loop index `i`: the distance between
the blocks at indices `(i * spread) mod numBlocks` and `((i + 1) * spread) mod numBlocks`. -/
def sampledDistance (data : List (List Byte)) (spread i : Nat) : Int :=
  CalculateDistance (data.getD ((i * spread) % data.length) [])
    (data.getD (((i + 1) * spread) % data.length) [])

/-- The sum of the `K` sampled distances, for `i` in `1..=K` and
`spread = numBlocks / K` (rounded down). -/
def sampledSum (data : List (List Byte)) (K : Nat) : Int :=
  ∑ i ∈ Finset.Icc 1 K, sampledDistance data (data.length / K) i

/-- The normalized score of the candidate key length `keyLength` for `cipherText`:
`checkAvgHamming(splitBlocks(cipherText, keyLength), 10) / keyLength`, evaluated as
`findBlockSize` does. -/
def candidateScore (F : Float32Arith) (cipherText : List Byte) (keyLength : Int) : Option ℚ :=
  (splitBlocks cipherText keyLength).bind (fun blocks => blockScore F blocks keyLength)

/-- The invariant of the loop of `findBlockSize` when it is about to examine the
candidate `cur`, for the search started at `lo`: the recorded best key size lies in
`[lo, cur)`, the recorded blocks and score are those of that key size, no candidate in
`[lo, cur)` scores lower, and every candidate after the recorded one scores strictly
higher. -/
def BestSoFar (F : Float32Arith) (cipherText : List Byte) (lo cur : Int)
    (best : ℚ × Int × List (List Byte)) : Prop :=
  lo ≤ best.2.1 ∧ best.2.1 < cur
    ∧ splitBlocks cipherText best.2.1 = some best.2.2
    ∧ candidateScore F cipherText best.2.1 = some best.1
    ∧ (∀ L' : Int, lo ≤ L' → L' < cur →
        ∃ s', candidateScore F cipherText L' = some s' ∧ best.1 ≤ s')
    ∧ (∀ L' : Int, best.2.1 < L' → L' < cur →
        ∃ s', candidateScore F cipherText L' = some s' ∧ best.1 < s')

/-- The invariant of the loop of `bruteForceSingleByte`, for the values `score` of the
calls of `chiSquareEnglish`, when it is about to examine the key with value `cur`: the
recorded key lies in `0x01..0x80`, the recorded plaintext is the ciphertext decoded
with it, the recorded score is the value a call returned for that plaintext (the call
of the iteration of that key, or call 0 for the key `0x01`), it is not above the value
of call 0 nor above the value computed for any key in `[0x01, cur)`, and it is
strictly below the value computed for every key before the recorded one. -/
def BestKeySoFarWith (score : Nat → List Byte → ℚ) (cipherText : List Byte) (cur : Nat)
    (best : List Byte × Byte × ℚ) : Prop :=
  1 ≤ best.2.1.val ∧ best.2.1.val ≤ 128
    ∧ best.1 = cipherText.map (fun b => b ^^^ best.2.1)
    ∧ (best.2.2 = score best.2.1.val best.1 ∨ (best.2.1.val = 1 ∧ best.2.2 = score 0 best.1))
    ∧ best.2.2 ≤ score 0 (cipherText.map (fun b => b ^^^ 0x01))
    ∧ (∀ k' : Byte, 1 ≤ k'.val → k'.val < cur →
        best.2.2 ≤ score k'.val (cipherText.map (fun b => b ^^^ k')))
    ∧ (∀ k' : Byte, 1 ≤ k'.val → k'.val < best.2.1.val →
        best.2.2 < score k'.val (cipherText.map (fun b => b ^^^ k')))

/-- The five-byte stream `8b 59 8e 7d 89`, for which the keys `0x1c` and `0x38` have
the same lowest exact score. -/
def tieStream : List Byte := [139, 89, 142, 125, 137]

/-- Values for the calls of `chiSquareEnglish` that are the exact sums, except that
call 56 returns `1/8192` less (one unit in the last place of a `float32` between 1024
and 2048). -/
def lateScore (n : Nat) (text : List Byte) : ℚ :=
  if n = 56 then chiSquareEnglish text - 1 / 8192 else chiSquareEnglish text

/-- The invariant of the loop of `bruteForceSingleByte` with exact scores when it is
about to examine the key with value `cur`: the recorded key lies in `0x01..0x80`, the recorded
plaintext and score are those of that key, no key in `[0x01, cur)` scores lower, and
every key before the recorded one scores strictly higher. -/
def BestKeySoFar (cipherText : List Byte) (cur : Nat) (best : List Byte × Byte × ℚ) : Prop :=
  1 ≤ best.2.1.val ∧ best.2.1.val ≤ 128
    ∧ best.1 = cipherText.map (fun b => b ^^^ best.2.1)
    ∧ best.2.2 = chiSquareEnglish best.1
    ∧ (∀ k' : Byte, 1 ≤ k'.val → k'.val < cur →
        best.2.2 ≤ chiSquareEnglish (cipherText.map (fun b => b ^^^ k')))
    ∧ (∀ k' : Byte, 1 ≤ k'.val → k'.val < best.2.1.val →
        best.2.2 < chiSquareEnglish (cipherText.map (fun b => b ^^^ k')))

/-- The key byte that `bruteForceSingleByte` returns for a stream. -/
def groupKey (group : List Byte) : Byte :=
  match bruteForceSingleByte group with
  | some (_, key, _) => key
  | none => 0

/-- The buffer `data` extended with zero bytes to a multiple of `blockSize` bytes. -/
def zeroPadded (data : List Byte) (blockSize : Nat) : List Byte :=
  data ++ List.replicate ((blockSize - data.length % blockSize) % blockSize) (0 : Byte)

/-- The transposed stream of key position `i`: the `i`-th byte of every block of
`blockSize` bytes of `padded`, in order. -/
def stream (padded : List Byte) (blockSize i : Nat) : List Byte :=
  (List.range (padded.length / blockSize)).map (fun j => padded.getD (j * blockSize + i) 0)

/-- The entries of `distribution` in millionths, by byte value. -/
def millionths (v : Nat) : Nat :=
  if v = 101 then 94498 else
  if v = 114 then 46229 else
  if v = 103 then 14805 else
  if v = 105 then 54841 else
  if v = 111 then 57409 else
  if v = 120 then 1435 else
  if v = 106 then 1209 else
  if v = 116 then 69873 else
  if v = 97 then 60733 else
  if v = 115 then 49402 else
  if v = 99 then 23115 else
  if v = 121 then 13068 else
  if v = 113 then 831 else
  if v = 110 then 53557 else
  if v = 104 then 41470 else
  if v = 100 then 30140 else
  if v = 117 then 20471 else
  if v = 112 then 15108 else
  if v = 98 then 11633 else
  if v = 109 then 19111 else
  if v = 119 then 14503 else
  if v = 32 then 120861 else
  if v = 108 then 31273 else
  if v = 102 then 17374 else
  if v = 118 then 7478 else
  if v = 107 then 5061 else
  if v = 122 then 680 else
  0

/-- A common multiple of the entries of `millionths` and of 500. -/
def scoreMultiple : Nat :=
  14900849169256260517310722418213497137089463979920532142503047155673327970677238177833000

/-- The frequency in millionths that `chiSquareEnglish` uses for the byte `key`, and
the amount it adds to `diff`: the table entry for a lower-case letter or the space; the
entry of `key + 0x20` and 1 for an upper-case letter or `0x00`; 500 for any other
byte. -/
def scaledParts (key : Byte) : Nat × Int :=
  if key.val = 32 ∨ (97 ≤ key.val ∧ key.val ≤ 122) then (millionths key.val, 0)
  else if key.val = 0 ∨ (65 ≤ key.val ∧ key.val ≤ 90) then (millionths (key.val + 32), 1)
  else (500, 0)

/-- The term of `chiSquareEnglish` for one map entry, multiplied by
`scoreMultiple * 1000000 * len`: an integer. -/
def scaledTerm (len : Nat) (key : Byte) (val : Int) : Int :=
  match scaledParts key with
  | (a, d) =>
    (1000000 * (val + d) - (a : Int) * (len : Int))
      * (1000000 * (val + d) - (a : Int) * (len : Int))
      * ((scoreMultiple / a : Nat) : Int)

/-- The score of the text whose byte counts are `hist` with every byte XORed with
`k`, multiplied by `scoreMultiple * 1000000 * len`. -/
def scaledScoreXor (hist : List (Byte × Int)) (len : Nat) (k : Byte) : Int :=
  (hist.map (fun entry => scaledTerm len (entry.1 ^^^ k) entry.2)).sum

/-- Whether `key` has the lowest scaled score among the keys `0x01..0x80` and every
smaller key has a strictly higher one. -/
def isFirstBest (hist : List (Byte × Int)) (len : Nat) (key : Byte) : Bool :=
  (List.range 128).all (fun j =>
    decide (scaledScoreXor hist len key ≤ scaledScoreXor hist len (Fin.ofNat (j + 1)))
      && (decide (j + 1 < key.val) →
        decide (scaledScoreXor hist len key < scaledScoreXor hist len (Fin.ofNat (j + 1)))))

/-- Ten one-byte blocks, the first `01` and the others `00`. -/
def tenBlocks : List (List Byte) :=
  [[1], [0], [0], [0], [0], [0], [0], [0], [0], [0]]

/-- The ASCII letters `a`-`z` and `A`-`Z`. -/
def isLetter (b : Byte) : Bool :=
  (97 ≤ b.val && b.val ≤ 122) || (65 ≤ b.val && b.val ≤ 90)

/-- The bytes of the 74-byte ASCII text
`"Burning 'em, if you ain't quick and nimble\nI go crazy when I hear a cymbal"`. -/
def burning : List Byte :=
  [66, 117, 114, 110, 105, 110, 103, 32, 39, 101, 109, 44, 32, 105, 102, 32, 121, 111, 117,
   32, 97, 105, 110, 39, 116, 32, 113, 117, 105, 99, 107, 32, 97, 110, 100, 32, 110, 105,
   109, 98, 108, 101, 10, 73, 32, 103, 111, 32, 99, 114, 97, 122, 121, 32, 119, 104, 101,
   110, 32, 73, 32, 104, 101, 97, 114, 32, 97, 32, 99, 121, 109, 98, 97, 108]

/-- The bytes of the ASCII string `"ICE"`. -/
def ice : List Byte := [73, 67, 69]

/-- The 74 bytes whose hex encoding is the literal of `challenge5`,
`0b3637272a2b2e63622c2e69692a23693a2a3c6324202d623d63343c2a26226324272765272a282b2f20430a652e2c652a3124333a653e2b2027630c692b20283165286326302e27282f`. -/
def hexAns : List Byte :=
  [0x0b, 0x36, 0x37, 0x27, 0x2a, 0x2b, 0x2e, 0x63, 0x62, 0x2c, 0x2e, 0x69, 0x69, 0x2a, 0x23,
   0x69, 0x3a, 0x2a, 0x3c, 0x63, 0x24, 0x20, 0x2d, 0x62, 0x3d, 0x63, 0x34, 0x3c, 0x2a, 0x26,
   0x22, 0x63, 0x24, 0x27, 0x27, 0x65, 0x27, 0x2a, 0x28, 0x2b, 0x2f, 0x20, 0x43, 0x0a, 0x65,
   0x2e, 0x2c, 0x65, 0x2a, 0x31, 0x24, 0x33, 0x3a, 0x65, 0x3e, 0x2b, 0x20, 0x27, 0x63, 0x0c,
   0x69, 0x2b, 0x20, 0x28, 0x31, 0x65, 0x28, 0x63, 0x26, 0x30, 0x2e, 0x27, 0x28, 0x2f]

/-- The bytes of the ASCII string `"this is a test"`. -/
def thisIsATest : List Byte :=
  [116, 104, 105, 115, 32, 105, 115, 32, 97, 32, 116, 101, 115, 116]

/-- The bytes of the ASCII string `"wokka wokka!!!"`. -/
def wokkaWokka : List Byte :=
  [119, 111, 107, 107, 97, 32, 119, 111, 107, 107, 97, 33, 33, 33]

end CryptoPals

namespace CryptoPals

/-! ## Bytes and the lookup table -/

theorem xor_val (a b : Byte) : (a ^^^ b).val = a.val ^^^ b.val := by
  show (Nat.xor a.val b.val) % 256 = _
  exact Nat.mod_eq_of_lt (Nat.xor_lt_two_pow (n := 8) a.isLt b.isLt)

theorem xor_comm_byte (a b : Byte) : a ^^^ b = b ^^^ a := by
  apply Fin.ext
  rw [xor_val, xor_val, Nat.xor_comm]

theorem xor_eq_zero_byte (a b : Byte) : a ^^^ b = 0 ↔ a = b := by
  rw [Fin.ext_iff, xor_val, Fin.ext_iff]
  exact Nat.xor_eq_zero

theorem countSetBits_facts : ∀ v : Byte,
    countSetBits v = (popCount v : Int) ∧ (countSetBits v = 0 ↔ v = 0) := by
  decide

theorem popCount_le (v : Byte) : popCount v ≤ 8 := by
  unfold popCount
  exact le_trans (List.length_filter_le _ _) (by simp)

theorem countSetBits_eq_popCount : ∀ v : Byte, countSetBits v = (popCount v : Int) :=
  fun v => (countSetBits_facts v).1

theorem countSetBits_nonneg : ∀ v : Byte, 0 ≤ countSetBits v := by
  intro v
  rw [countSetBits_eq_popCount]
  exact Int.natCast_nonneg _

theorem countSetBits_le : ∀ v : Byte, countSetBits v ≤ 8 := by
  intro v
  rw [countSetBits_eq_popCount]
  exact_mod_cast popCount_le v

theorem countSetBits_eq_zero : ∀ v : Byte, countSetBits v = 0 ↔ v = 0 :=
  fun v => (countSetBits_facts v).2

theorem Distance_comm (a b : Byte) : Distance a b = Distance b a := by
  unfold Distance
  rw [xor_comm_byte]

theorem Distance_nonneg (a b : Byte) : 0 ≤ Distance a b :=
  countSetBits_nonneg _

theorem Distance_le (a b : Byte) : Distance a b ≤ 8 :=
  countSetBits_le _

theorem Distance_eq_zero (a b : Byte) : Distance a b = 0 ↔ a = b := by
  unfold Distance
  rw [countSetBits_eq_zero, xor_eq_zero_byte]

/-! ## `CalculateDistance` as a sum -/

theorem foldl_add_eq_sum (f : Nat → Int) (l : List Nat) (init : Int) :
    l.foldl (fun acc i => acc + f i) init = init + (l.map f).sum := by
  induction l generalizing init with
  | nil => simp
  | cons x xs ih => simp [ih, add_assoc]

theorem map_range_getD_eq_zipWith (f : Byte → Byte → Int) (a b : List Byte)
    (h : a.length = b.length) :
    (List.range a.length).map (fun i => f (a.getD i 0) (b.getD i 0)) = List.zipWith f a b := by
  apply List.ext_getElem
  · simp [h]
  · intro n h₁ h₂
    have ha : n < a.length := by simpa using h₁
    have hb : n < b.length := h ▸ ha
    simp [List.getElem?_eq_getElem ha, List.getElem?_eq_getElem hb]

theorem CalculateDistance_of_length_ne (a b : List Byte) (h : a.length ≠ b.length) :
    CalculateDistance a b = -1 := by
  unfold CalculateDistance
  rw [if_pos h]

theorem CalculateDistance_of_length_eq (a b : List Byte) (h : a.length = b.length) :
    CalculateDistance a b = (List.zipWith Distance a b).sum := by
  unfold CalculateDistance
  rw [if_neg (not_not.mpr h), foldl_add_eq_sum, zero_add,
    map_range_getD_eq_zipWith Distance a b h]

theorem sum_map_range (f : Nat → Int) (n : Nat) :
    ((List.range n).map f).sum = ∑ i ∈ Finset.range n, f i := by
  induction n with
  | zero => simp
  | succ n ih => rw [List.sum_range_succ, Finset.sum_range_succ, ih]

theorem zipWith_Distance_nonneg (a b : List Byte) : 0 ≤ (List.zipWith Distance a b).sum := by
  induction a generalizing b with
  | nil => simp
  | cons x xs ih =>
    cases b with
    | nil => simp
    | cons y ys =>
      simp only [List.zipWith_cons_cons, List.sum_cons]
      exact add_nonneg (Distance_nonneg x y) (ih ys)

theorem zipWith_Distance_le (a b : List Byte) :
    (List.zipWith Distance a b).sum ≤ 8 * (a.length : Int) := by
  induction a generalizing b with
  | nil => simp
  | cons x xs ih =>
    cases b with
    | nil => simp; positivity
    | cons y ys =>
      simp only [List.zipWith_cons_cons, List.sum_cons, List.length_cons]
      have h1 := Distance_le x y
      have h2 := ih ys
      push_cast
      linarith

theorem zipWith_Distance_eq_zero (a b : List Byte) (h : a.length = b.length) :
    (List.zipWith Distance a b).sum = 0 ↔ a = b := by
  induction a generalizing b with
  | nil =>
    cases b with
    | nil => simp
    | cons y ys => simp at h
  | cons x xs ih =>
    cases b with
    | nil => simp at h
    | cons y ys =>
      have hlen : xs.length = ys.length := by simpa using h
      simp only [List.zipWith_cons_cons, List.sum_cons, List.cons.injEq]
      have h1 := Distance_nonneg x y
      have h2 := zipWith_Distance_nonneg xs ys
      constructor
      · intro hsum
        have hx : Distance x y = 0 := by linarith
        have hs : (List.zipWith Distance xs ys).sum = 0 := by linarith
        exact ⟨(Distance_eq_zero x y).mp hx, (ih ys hlen).mp hs⟩
      · rintro ⟨hxy, hrest⟩
        rw [(Distance_eq_zero x y).mpr hxy, (ih ys hlen).mpr hrest, add_zero]

theorem CalculateDistance_nonneg_of_length_eq (a b : List Byte) (h : a.length = b.length) :
    0 ≤ CalculateDistance a b := by
  rw [CalculateDistance_of_length_eq a b h]
  exact zipWith_Distance_nonneg a b

/-! ## Claims on `CalculateDistance` -/

/-- C1: for byte sequences `a`, `b` of equal length, `CalculateDistance a b` is the sum
over all positions `i` of the population count of `a[i] XOR b[i]`; `countSetBits`
is the population count on each of the 256 byte values; and the distance between
`"this is a test"` and `"wokka wokka!!!"` is 37. -/
theorem CalculateDistance_eq_sum_popCount (a b : List Byte) (h : a.length = b.length) :
    CalculateDistance a b
        = ∑ i ∈ Finset.range a.length, (popCount (a.getD i 0 ^^^ b.getD i 0) : Int)
      ∧ (∀ v : Byte, countSetBits v = (popCount v : Int))
      ∧ CalculateDistance thisIsATest wokkaWokka = 37 := by
  refine ⟨?_, countSetBits_eq_popCount, by decide⟩
  unfold CalculateDistance
  rw [if_neg (not_not.mpr h), foldl_add_eq_sum, zero_add, sum_map_range]
  apply Finset.sum_congr rfl
  intro i _
  exact countSetBits_eq_popCount _

/-- Witness of C1 at the two 3-byte sequences `01 02 03` and `03 02 01`, which differ
in two bits. -/
theorem CalculateDistance_eq_sum_popCount_witness :
    CalculateDistance [1, 2, 3] [3, 2, 1] = 2
      ∧ ∑ i ∈ Finset.range 3,
          (popCount (([1, 2, 3] : List Byte).getD i 0 ^^^ ([3, 2, 1] : List Byte).getD i 0) : Int)
        = 2 := by
  have h := (CalculateDistance_eq_sum_popCount [1, 2, 3] [3, 2, 1] rfl).1
  refine ⟨by decide, ?_⟩
  rw [← show (([1, 2, 3] : List Byte).length = 3) from rfl, ← h]
  decide

/-- C2: `CalculateDistance` is symmetric on byte sequences of equal length. -/
theorem CalculateDistance_symm (a b : List Byte) (h : a.length = b.length) :
    CalculateDistance a b = CalculateDistance b a := by
  rw [CalculateDistance_of_length_eq a b h, CalculateDistance_of_length_eq b a h.symm]
  congr 1
  induction a generalizing b with
  | nil => cases b <;> simp
  | cons x xs ih =>
    cases b with
    | nil => simp
    | cons y ys =>
      simp only [List.zipWith_cons_cons, List.cons.injEq]
      exact ⟨Distance_comm x y, ih ys (by simpa using h)⟩

/-- Witness of C2 at `"this is a test"` and `"wokka wokka!!!"`. -/
theorem CalculateDistance_symm_witness :
    thisIsATest.length = wokkaWokka.length
      ∧ CalculateDistance thisIsATest wokkaWokka = CalculateDistance wokkaWokka thisIsATest :=
  ⟨by decide, CalculateDistance_symm thisIsATest wokkaWokka (by decide)⟩

/-- C3: for all byte sequences `a` and `b`, `CalculateDistance a b = 0` exactly when
`a` and `b` are identical (same length and the same byte at every position). -/
theorem CalculateDistance_eq_zero_iff (a b : List Byte) :
    CalculateDistance a b = 0 ↔ a = b := by
  by_cases h : a.length = b.length
  · rw [CalculateDistance_of_length_eq a b h]
    exact zipWith_Distance_eq_zero a b h
  · rw [CalculateDistance_of_length_ne a b h]
    constructor
    · intro h0
      exact absurd h0 (by decide)
    · intro hab
      exact absurd (congrArg List.length hab) h

/-- C4: for byte sequences `a` and `b` of the same length `n`,
`0 ≤ CalculateDistance a b ≤ 8 * n`. -/
theorem CalculateDistance_bounds (a b : List Byte) (n : Nat)
    (ha : a.length = n) (hb : b.length = n) :
    0 ≤ CalculateDistance a b ∧ CalculateDistance a b ≤ 8 * (n : Int) := by
  have h : a.length = b.length := ha.trans hb.symm
  rw [CalculateDistance_of_length_eq a b h, ← ha]
  exact ⟨zipWith_Distance_nonneg a b, zipWith_Distance_le a b⟩

/-- Witness of C4 at `"this is a test"` and `"wokka wokka!!!"`, of length 14. -/
theorem CalculateDistance_bounds_witness :
    0 ≤ CalculateDistance thisIsATest wokkaWokka
      ∧ CalculateDistance thisIsATest wokkaWokka ≤ 8 * ((14 : Nat) : Int) :=
  CalculateDistance_bounds thisIsATest wokkaWokka 14 (by decide) (by decide)

/-- C5: for byte sequences of unequal length `CalculateDistance` returns the failure
value `-1`. That value signals the mismatch: no pair of equal-length sequences has
distance `-1`, and in particular `-1` is neither the distance of the two inputs
truncated to the shorter length nor the distance of the two inputs zero-padded to
the longer length. -/
theorem CalculateDistance_length_mismatch (a b : List Byte) (h : a.length ≠ b.length) :
    CalculateDistance a b = -1
      ∧ (∀ a' b' : List Byte, a'.length = b'.length →
          CalculateDistance a' b' ≠ CalculateDistance a b)
      ∧ CalculateDistance a b
          ≠ CalculateDistance (a.take (min a.length b.length)) (b.take (min a.length b.length))
      ∧ CalculateDistance a b
          ≠ CalculateDistance (a ++ List.replicate (b.length - a.length) 0)
              (b ++ List.replicate (a.length - b.length) 0) := by
  have hne : ∀ a' b' : List Byte, a'.length = b'.length →
      CalculateDistance a' b' ≠ CalculateDistance a b := by
    intro a' b' h'
    have := CalculateDistance_nonneg_of_length_eq a' b' h'
    rw [CalculateDistance_of_length_ne a b h]
    omega
  refine ⟨CalculateDistance_of_length_ne a b h, hne, ?_, ?_⟩
  · exact (hne _ _ (by simp)).symm
  · refine (hne _ _ ?_).symm
    simp only [List.length_append, List.length_replicate]
    omega

/-- Witness of C5 at a 3-byte and a 2-byte sequence. -/
theorem CalculateDistance_length_mismatch_witness :
    CalculateDistance [1, 2, 3] [1, 2] = -1 :=
  (CalculateDistance_length_mismatch [1, 2, 3] [1, 2] (by decide)).1

/-! ## `splitBlocks` -/

theorem slice_natCast (data : List Byte) (i n : Nat) :
    slice data ((i : Int) * n) (((i : Int) + 1) * n) = (data.drop (i * n)).take n := by
  unfold slice
  have h1 : ((i : Int) * n).toNat = i * n := by
    rw [← Nat.cast_mul, Int.toNat_natCast]
  have h2 : (((i : Int) + 1) * n - (i : Int) * n).toNat = n := by
    have : ((i : Int) + 1) * n - (i : Int) * n = (n : Int) := by ring
    rw [this, Int.toNat_natCast]
  rw [h1, h2]

theorem splitBlocks_natCast (data : List Byte) (n : Nat) (hn : 0 < n) :
    splitBlocks data (n : Int)
      = some ((List.range ((data.length + (n - data.length % n) % n) / n)).map
          (fun i => ((data ++ List.replicate ((n - data.length % n) % n) 0).drop (i * n)).take n)) := by
  unfold splitBlocks
  have hn0 : (n : Int) ≠ 0 := by omega
  have hr : Int.tmod (data.length : Int) (n : Int) = ((data.length % n : Nat) : Int) :=
    (Int.ofNat_tmod _ _).symm
  have hlt : data.length % n < n := Nat.mod_lt _ hn
  rw [if_neg hn0]
  simp only [hr]
  by_cases h0 : data.length % n = 0
  · have hpad : (n - data.length % n) % n = 0 := by rw [h0]; simp
    have e1 : ((data.length : Int)).tdiv n = ((data.length / n : Nat) : Int) :=
      (Int.ofNat_tdiv _ _).symm
    simp only [h0, hpad, slice_natCast, e1]
    simp
    exact ⟨by rw [e1]; positivity, by rw [e1, Int.toNat_natCast]⟩
  · have hpad : (n - data.length % n) % n = n - data.length % n :=
      Nat.mod_eq_of_lt (by omega)
    have hne : ((data.length % n : Nat) : Int) ≠ 0 := by exact_mod_cast h0
    have hsub : (n : Int) - ((data.length % n : Nat) : Int) = ((n - data.length % n : Nat) : Int) := by
      omega
    have e1 : ((data.length + (n - data.length % n) : Nat) : Int).tdiv n
        = (((data.length + (n - data.length % n)) / n : Nat) : Int) :=
      (Int.ofNat_tdiv _ _).symm
    simp only [hpad, if_pos hne, hsub, Int.toNat_natCast, List.length_append,
      List.length_replicate, slice_natCast, e1]
    simp
    positivity

theorem length_padded (len n : Nat) (hn : 0 < n) :
    len + (n - len % n) % n = ((len + (n - len % n) % n) / n) * n := by
  have hlt : len % n < n := Nat.mod_lt _ hn
  have hdm := Nat.div_add_mod len n
  by_cases h0 : len % n = 0
  · have hpad : (n - len % n) % n = 0 := by rw [h0]; simp
    rw [hpad, add_zero]
    have : n ∣ len := Nat.dvd_of_mod_eq_zero h0
    exact (Nat.div_mul_cancel this).symm
  · have hpad : (n - len % n) % n = n - len % n := Nat.mod_eq_of_lt (by omega)
    rw [hpad]
    have hdvd : n ∣ len + (n - len % n) := by
      refine ⟨len / n + 1, ?_⟩
      rw [Nat.mul_add, Nat.mul_one]
      omega
    exact (Nat.div_mul_cancel hdvd).symm

theorem flatten_chunks (n k : Nat) (l : List Byte) (h : l.length = k * n) :
    ((List.range k).map (fun i => (l.drop (i * n)).take n)).flatten = l := by
  induction k generalizing l with
  | zero =>
    have : l = [] := List.length_eq_zero.mp (by simpa using h)
    simp [this]
  | succ k ih =>
    rw [List.range_succ_eq_map, List.map_cons, List.map_map, List.flatten_cons]
    have hl : (l.drop n).length = k * n := by
      rw [List.length_drop, h, Nat.succ_mul]; omega
    have := ih (l.drop n) hl
    have hfun : ((fun i => (l.drop (i * n)).take n) ∘ Nat.succ)
        = (fun i => ((l.drop n).drop (i * n)).take n) := by
      funext i
      simp only [Function.comp, List.drop_drop, Nat.succ_mul]
      rw [Nat.add_comm]
    rw [hfun, this]
    simp

theorem length_chunk (n k i : Nat) (l : List Byte) (h : l.length = k * n) (hi : i < k) :
    ((l.drop (i * n)).take n).length = n := by
  rw [List.length_take, List.length_drop, h]
  have : (i + 1) * n ≤ k * n := Nat.mul_le_mul_right n hi
  rw [Nat.succ_mul] at this
  omega

theorem ceil_div_eq (len n : Nat) (hn : 0 < n) :
    ⌈(len : ℚ) / (n : ℚ)⌉ = (((len + (n - len % n) % n) / n : Nat) : Int) := by
  have hlt : len % n < n := Nat.mod_lt _ hn
  have hpadlt : (n - len % n) % n < n := Nat.mod_lt _ hn
  have hk := length_padded len n hn
  have hnq : (0 : ℚ) < n := by exact_mod_cast hn
  rw [Int.ceil_eq_iff]
  set k := (len + (n - len % n) % n) / n with hkdef
  have hkq : ((len : ℚ) + (((n - len % n) % n : Nat) : ℚ)) = (k : ℚ) * n := by exact_mod_cast hk
  have hp0 : (0 : ℚ) ≤ (((n - len % n) % n : Nat) : ℚ) := by positivity
  have hp1 : (((n - len % n) % n : Nat) : ℚ) < n := by exact_mod_cast hpadlt
  constructor
  · rw [lt_div_iff₀ hnq]
    push_cast
    nlinarith
  · rw [div_le_iff₀ hnq]
    push_cast
    nlinarith

theorem zeroPadding_natCast (len n : Nat) (hn : 0 < n) :
    (((n : Int) - (len : Int) % (n : Int)) % (n : Int)).toNat = (n - len % n) % n := by
  have hlt : len % n < n := Nat.mod_lt _ hn
  have : ((n : Int) - (len : Int) % (n : Int)) % (n : Int) = (((n - len % n) % n : Nat) : Int) := by
    rw [Int.natCast_mod, Nat.cast_sub hlt.le, Int.natCast_mod]
  rw [this, Int.toNat_natCast]

/-- C6: for every byte buffer `data` and every `blockSize ≥ 1`, `splitBlocks` returns
a list of blocks, every block has length exactly `blockSize`, and the number of
blocks is `⌈len(data) / blockSize⌉`. -/
theorem splitBlocks_block_lengths (data : List Byte) (blockSize : Int) (h : 1 ≤ blockSize) :
    ∃ blocks, splitBlocks data blockSize = some blocks
      ∧ (∀ block ∈ blocks, (block.length : Int) = blockSize)
      ∧ (blocks.length : Int) = ⌈(data.length : ℚ) / (blockSize : ℚ)⌉ := by
  lift blockSize to Nat using (by omega)
  have hn : 0 < blockSize := by omega
  refine ⟨_, splitBlocks_natCast data blockSize hn, ?_, ?_⟩
  · intro block hblock
    rw [List.mem_map] at hblock
    obtain ⟨i, hi, rfl⟩ := hblock
    rw [List.mem_range] at hi
    have hlen : (data ++ List.replicate ((blockSize - data.length % blockSize) % blockSize) (0 : Byte)).length
        = ((data.length + (blockSize - data.length % blockSize) % blockSize) / blockSize) * blockSize := by
      rw [List.length_append, List.length_replicate]
      exact length_padded data.length blockSize hn
    rw [length_chunk blockSize _ i _ hlen hi]
  · rw [List.length_map, List.length_range]
    have := ceil_div_eq data.length blockSize hn
    rw [Int.cast_natCast]
    exact this.symm

/-- Witness of C6 at a 5-byte buffer and block size 2: three blocks of two bytes. -/
theorem splitBlocks_block_lengths_witness :
    ∃ blocks, splitBlocks [1, 2, 3, 4, 5] 2 = some blocks
      ∧ (∀ block ∈ blocks, (block.length : Int) = 2)
      ∧ (blocks.length : Int) = ⌈((([1, 2, 3, 4, 5] : List Byte).length : ℚ)) / ((2 : Int) : ℚ)⌉ :=
  splitBlocks_block_lengths [1, 2, 3, 4, 5] 2 (by decide)

/-- C7: for every byte buffer `data` and every `blockSize ≥ 1`, the blocks of
`splitBlocks data blockSize` concatenated in order are `data` followed by exactly
`(blockSize - len(data) mod blockSize) mod blockSize` zero bytes; when `len(data)` is
a multiple of `blockSize` the concatenation is `data` itself. -/
theorem splitBlocks_flatten (data : List Byte) (blockSize : Int) (h : 1 ≤ blockSize) :
    ∃ blocks, splitBlocks data blockSize = some blocks
      ∧ blocks.flatten
          = data ++ List.replicate
              (((blockSize - (data.length : Int) % blockSize) % blockSize).toNat) (0 : Byte)
      ∧ ((data.length : Int) % blockSize = 0 → blocks.flatten = data) := by
  lift blockSize to Nat using (by omega)
  have hn : 0 < blockSize := by omega
  have hlen : (data ++ List.replicate ((blockSize - data.length % blockSize) % blockSize) (0 : Byte)).length
      = ((data.length + (blockSize - data.length % blockSize) % blockSize) / blockSize) * blockSize := by
    rw [List.length_append, List.length_replicate]
    exact length_padded data.length blockSize hn
  have hflat := flatten_chunks blockSize _ _ hlen
  refine ⟨_, splitBlocks_natCast data blockSize hn, ?_, ?_⟩
  · rw [zeroPadding_natCast data.length blockSize hn]
    exact hflat
  · intro h0
    have h0' : data.length % blockSize = 0 := by exact_mod_cast h0
    rw [hflat, h0']
    simp

/-- Witness of C7 at a 5-byte buffer and block size 2: one zero byte is appended. -/
theorem splitBlocks_flatten_witness :
    ∃ blocks, splitBlocks [1, 2, 3, 4, 5] 2 = some blocks
      ∧ blocks.flatten
          = [1, 2, 3, 4, 5] ++ List.replicate
              ((((2 : Int) - ((([1, 2, 3, 4, 5] : List Byte).length : Nat) : Int) % 2) % 2).toNat) (0 : Byte)
      ∧ (((([1, 2, 3, 4, 5] : List Byte).length : Nat) : Int) % 2 = 0
          → blocks.flatten = [1, 2, 3, 4, 5]) :=
  splitBlocks_flatten [1, 2, 3, 4, 5] 2 (by decide)

/-! ## `checkAvgHamming` -/

theorem index?_natCast {α : Type} (data : List α) (k : Nat) (hk : k < data.length) :
    index? data (k : Int) = some (data.get ⟨k, hk⟩) := by
  unfold index?
  rw [if_neg (by omega), Int.toNat_natCast, List.getElem?_eq_getElem hk]
  rfl

theorem getD_eq_get (data : List (List Byte)) (k : Nat) (hk : k < data.length) :
    data.getD k [] = data.get ⟨k, hk⟩ := by
  simp [List.getElem?_eq_getElem hk]

theorem checkAvgHammingLoop_eq (data : List (List Byte)) (hdata : data ≠ []) (spread : Nat)
    (m i : Nat) (hammingDist : Int) :
    checkAvgHammingLoop data (spread : Int) m (i : Int) hammingDist
      = some (hammingDist + ∑ j ∈ Finset.range m, sampledDistance data spread (i + j)) := by
  have hlen : 0 < data.length := List.length_pos.mpr hdata
  induction m generalizing i hammingDist with
  | zero => simp [checkAvgHammingLoop]
  | succ m ih =>
    have h1 : (i * spread) % data.length < data.length := Nat.mod_lt _ hlen
    have h2 : ((i + 1) * spread) % data.length < data.length := Nat.mod_lt _ hlen
    have e1 : Int.tmod ((i : Int) * (spread : Int)) (data.length : Int)
        = (((i * spread) % data.length : Nat) : Int) := by
      rw [← Nat.cast_mul, Int.ofNat_tmod]
    have e2 : Int.tmod (((i : Int) + 1) * (spread : Int)) (data.length : Int)
        = ((((i + 1) * spread) % data.length : Nat) : Int) := by
      have : ((i : Int) + 1) * (spread : Int) = (((i + 1) * spread : Nat) : Int) := by push_cast; ring
      rw [this, Int.ofNat_tmod]
    unfold checkAvgHammingLoop
    rw [if_neg (by omega)]
    simp only [e1, e2, index?_natCast data _ h1, index?_natCast data _ h2]
    have hnext := ih (i + 1) (hammingDist + CalculateDistance (data.get ⟨_, h1⟩) (data.get ⟨_, h2⟩))
    rw [Nat.cast_add, Nat.cast_one] at hnext
    rw [hnext, Finset.sum_range_succ', add_assoc]
    congr 2
    rw [add_comm]
    congr 1
    · apply Finset.sum_congr rfl
      intro j _
      rw [show i + 1 + j = i + (j + 1) by omega]
    · unfold sampledDistance
      simp only [Nat.add_zero]
      rw [getD_eq_get data _ h1, getD_eq_get data _ h2]

theorem sampledSum_eq_sum_range (data : List (List Byte)) (K : Nat) :
    sampledSum data K = ∑ j ∈ Finset.range K, sampledDistance data (data.length / K) (1 + j) := by
  unfold sampledSum
  rw [← Nat.Ico_succ_right, Finset.sum_Ico_eq_sum_range]
  simp

theorem checkAvgHamming_eq (data : List (List Byte)) (hdata : data ≠ []) (K : Nat) (hK : 0 < K) :
    checkAvgHamming data (K : Int) = some (Int.tdiv (sampledSum data K) (K : Int)) := by
  unfold checkAvgHamming
  rw [if_neg (by omega)]
  have hs : Int.tdiv (data.length : Int) (K : Int) = ((data.length / K : Nat) : Int) :=
    (Int.ofNat_tdiv _ _).symm
  have hloop := checkAvgHammingLoop_eq data hdata (data.length / K) K 1 0
  rw [Nat.cast_one] at hloop
  simp only [hs, Int.toNat_natCast, hloop, zero_add, Option.map_some', sampledSum_eq_sum_range]

/-! ## `findBlockSize` -/

theorem splitBlocks_of_nonempty (cipherText : List Byte) (hc : cipherText ≠ []) (L : Int)
    (hL : 1 ≤ L) :
    ∃ blocks, splitBlocks cipherText L = some blocks ∧ blocks ≠ [] := by
  lift L to Nat using (by omega)
  have hn : 0 < L := by omega
  refine ⟨_, splitBlocks_natCast cipherText L hn, ?_⟩
  have hlen : 0 < cipherText.length := List.length_pos.mpr hc
  have hk := length_padded cipherText.length L hn
  have hpos : 0 < (cipherText.length + (L - cipherText.length % L) % L) / L := by
    rcases Nat.eq_zero_or_pos ((cipherText.length + (L - cipherText.length % L) % L) / L) with h0 | h0
    · rw [h0] at hk; omega
    · exact h0
  intro hnil
  have := congrArg List.length hnil
  rw [List.length_map, List.length_range] at this
  simp at this
  omega

theorem candidateScore_of_nonempty (F : Float32Arith) (cipherText : List Byte)
    (hc : cipherText ≠ []) (L : Int) (hL : 1 ≤ L) :
    ∃ blocks s, splitBlocks cipherText L = some blocks ∧ blockScore F blocks L = some s
      ∧ candidateScore F cipherText L = some s := by
  obtain ⟨blocks, hsplit, hne⟩ := splitBlocks_of_nonempty cipherText hc L hL
  have havg := checkAvgHamming_eq blocks hne 10 (by decide)
  have hscore : blockScore F blocks L
      = some (F.div (F.ofInt (Int.tdiv (sampledSum blocks 10) ((10 : Nat) : Int))) (F.ofInt L)) := by
    unfold blockScore
    rw [show (10 : Int) = ((10 : Nat) : Int) from rfl, havg]
    rfl
  refine ⟨blocks, _, hsplit, hscore, ?_⟩
  unfold candidateScore
  rw [hsplit]
  exact hscore

theorem findBlockSizeLoop_spec (F : Float32Arith) (cipherText : List Byte)
    (hc : cipherText ≠ []) (lo : Int) (hlo : 1 ≤ lo) (n : Nat) (cur : Int)
    (best : ℚ × Int × List (List Byte)) (hinv : BestSoFar F cipherText lo cur best) :
    ∃ best', findBlockSizeLoop F cipherText n cur best = some best'
      ∧ BestSoFar F cipherText lo (cur + n) best' := by
  induction n generalizing cur best with
  | zero =>
    refine ⟨best, ?_, ?_⟩
    · obtain ⟨m, bk, bb⟩ := best
      rfl
    · simpa using hinv
  | succ n ih =>
    obtain ⟨m, bk, bb⟩ := best
    obtain ⟨h1, h2, h3, h4, h5, h6⟩ := hinv
    simp only at h1 h2 h3 h4 h5 h6
    have hcur : 1 ≤ cur := by omega
    obtain ⟨blocks, s, hsplit, hscore, hcand⟩ :=
      candidateScore_of_nonempty F cipherText hc cur hcur
    have hcast : cur + ((n + 1 : Nat) : Int) = cur + 1 + (n : Int) := by push_cast; ring
    rw [hcast]
    unfold findBlockSizeLoop
    simp only [hsplit, hscore]
    by_cases hle : s ≤ m
    · rw [if_pos hle]
      apply ih
      refine ⟨by simp only; omega, by simp only; omega, hsplit, hcand, ?_, ?_⟩
      · intro L' hL1 hL2
        rcases (show L' < cur ∨ L' = cur by omega) with hlt | heq
        · obtain ⟨s', hs', hms'⟩ := h5 L' hL1 hlt
          exact ⟨s', hs', le_trans hle hms'⟩
        · subst heq
          exact ⟨s, hcand, le_refl _⟩
      · intro L' hL1 hL2
        simp only at hL1
        omega
    · rw [if_neg hle]
      have hlt : m < s := lt_of_not_le hle
      apply ih
      refine ⟨h1, by simp only; omega, h3, h4, ?_, ?_⟩
      · intro L' hL1 hL2
        rcases (show L' < cur ∨ L' = cur by omega) with hlt' | heq
        · exact h5 L' hL1 hlt'
        · subst heq
          exact ⟨s, hcand, le_of_lt hlt⟩
      · intro L' hL1 hL2
        rcases (show L' < cur ∨ L' = cur by omega) with hlt' | heq
        · exact h6 L' hL1 hlt'
        · subst heq
          exact ⟨s, hcand, hlt⟩

theorem findBlockSize_spec (F : Float32Arith) (cipherText : List Byte) (hc : cipherText ≠ [])
    (minKeyLength maxKeyLength : Int) (hmin : 1 ≤ minKeyLength)
    (hmax : minKeyLength ≤ maxKeyLength) :
    ∃ L blocks s, findBlockSize F cipherText minKeyLength maxKeyLength = some (L, blocks)
      ∧ minKeyLength ≤ L ∧ L ≤ maxKeyLength
      ∧ splitBlocks cipherText L = some blocks
      ∧ candidateScore F cipherText L = some s
      ∧ (∀ L' : Int, minKeyLength ≤ L' → L' ≤ maxKeyLength →
          ∃ s', candidateScore F cipherText L' = some s' ∧ s ≤ s')
      ∧ (∀ L' : Int, L < L' → L' ≤ maxKeyLength →
          ∃ s', candidateScore F cipherText L' = some s' ∧ s < s') := by
  obtain ⟨blocks, s, hsplit, hscore, hcand⟩ :=
    candidateScore_of_nonempty F cipherText hc minKeyLength hmin
  have hinit : BestSoFar F cipherText minKeyLength (minKeyLength + 1) (s, minKeyLength, blocks) := by
    refine ⟨le_refl _, by simp only; omega, hsplit, hcand, ?_, ?_⟩
    · intro L' hL1 hL2
      have : L' = minKeyLength := by omega
      subst this
      exact ⟨s, hcand, le_refl _⟩
    · intro L' hL1 hL2
      simp only at hL1
      omega
  obtain ⟨⟨m', bk', bb'⟩, hloop, h1, h2, h3, h4, h5, h6⟩ :=
    findBlockSizeLoop_spec F cipherText hc minKeyLength hmin
      (maxKeyLength - minKeyLength).toNat (minKeyLength + 1) _ hinit
  have hend : minKeyLength + 1 + (((maxKeyLength - minKeyLength).toNat : Nat) : Int)
      = maxKeyLength + 1 := by
    rw [Int.toNat_of_nonneg (by omega)]; ring
  rw [hend] at h2 h5 h6
  simp only at h1 h2 h3 h4 h5 h6
  refine ⟨bk', bb', m', ?_, h1, by omega, h3, h4, ?_, ?_⟩
  · unfold findBlockSize
    simp only [hsplit, hscore, hloop, Option.map_some']
  · intro L' hL1 hL2
    exact h5 L' hL1 (by omega)
  · intro L' hL1 hL2
    exact h6 L' hL1 (by omega)

/-- C8: for a non-empty ciphertext and a range `1 ≤ minKeyLength ≤ maxKeyLength`,
`findBlockSize` returns a pair `(L, blocks)` with `minKeyLength ≤ L ≤ maxKeyLength` and
`blocks = splitBlocks(cipherText, L)`, and no candidate length `L'` of the range has a
strictly smaller normalized score `checkAvgHamming(splitBlocks(c, L'), 10) / L'` than
`L` has. -/
theorem findBlockSize_minimal (F : Float32Arith) (cipherText : List Byte)
    (hc : cipherText ≠ []) (minKeyLength maxKeyLength : Int) (hmin : 1 ≤ minKeyLength)
    (hmax : minKeyLength ≤ maxKeyLength) :
    ∃ L blocks s, findBlockSize F cipherText minKeyLength maxKeyLength = some (L, blocks)
      ∧ minKeyLength ≤ L ∧ L ≤ maxKeyLength
      ∧ splitBlocks cipherText L = some blocks
      ∧ candidateScore F cipherText L = some s
      ∧ (∀ L' : Int, minKeyLength ≤ L' → L' ≤ maxKeyLength →
          ∃ s', candidateScore F cipherText L' = some s' ∧ ¬ s' < s) := by
  obtain ⟨L, blocks, s, h1, h2, h3, h4, h5, h6, _⟩ :=
    findBlockSize_spec F cipherText hc minKeyLength maxKeyLength hmin hmax
  refine ⟨L, blocks, s, h1, h2, h3, h4, h5, ?_⟩
  intro L' hL1 hL2
  obtain ⟨s', hs', hle⟩ := h6 L' hL1 hL2
  exact ⟨s', hs', not_lt.mpr hle⟩

/-- Witness of C8 at the 14-byte ciphertext `"this is a test"` and the range `2..5`. -/
theorem findBlockSize_minimal_witness :
    ∃ L blocks s, findBlockSize exactArith thisIsATest 2 5 = some (L, blocks)
      ∧ 2 ≤ L ∧ L ≤ 5
      ∧ splitBlocks thisIsATest L = some blocks
      ∧ candidateScore exactArith thisIsATest L = some s
      ∧ (∀ L' : Int, 2 ≤ L' → L' ≤ 5 →
          ∃ s', candidateScore exactArith thisIsATest L' = some s' ∧ ¬ s' < s) :=
  findBlockSize_minimal exactArith thisIsATest (by decide) 2 5 (by decide) (by decide)

theorem findBlockSize_one_byte :
    findBlockSize exactArith [0] 1 2 = some (2, [[0, 0]]) := by
  have h1 : splitBlocks [0] 1 = some [[0]] := by decide
  have h2 : checkAvgHamming [[0]] 10 = some 0 := by decide
  have h3 : splitBlocks [0] 2 = some [[0, 0]] := by decide
  have h4 : checkAvgHamming [[0, 0]] 10 = some 0 := by decide
  have h5 : ((2 : Int) - 1).toNat = 1 := by decide
  simp [findBlockSize, findBlockSizeLoop, blockScore, h1, h2, h3, h4, h5, exactArith]

theorem candidateScore_one_byte_one : candidateScore exactArith [0] 1 = some 0 := by
  have h1 : splitBlocks [0] 1 = some [[0]] := by decide
  have h2 : checkAvgHamming [[0]] 10 = some 0 := by decide
  simp [candidateScore, blockScore, h1, h2, exactArith]

theorem candidateScore_one_byte_two : candidateScore exactArith [0] 2 = some 0 := by
  have h3 : splitBlocks [0] 2 = some [[0, 0]] := by decide
  have h4 : checkAvgHamming [[0, 0]] 10 = some 0 := by decide
  simp [candidateScore, blockScore, h3, h4, exactArith]

/-- C9 (as stated) fails: for the one-byte ciphertext `00` and the range `1..2` both
candidate lengths have normalized score 0, and `findBlockSize` returns `L = 2`, the
last examined, although the candidate `L' = 1 < L` does not have a strictly larger
score. -/
theorem findBlockSize_tie_not_smallest :
    findBlockSize exactArith [0] 1 2 = some (2, [[0, 0]])
      ∧ candidateScore exactArith [0] 1 = some 0
      ∧ candidateScore exactArith [0] 2 = some 0
      ∧ ¬ (∀ (L : Int) (blocks : List (List Byte)) (s : ℚ),
            findBlockSize exactArith [0] 1 2 = some (L, blocks) →
            candidateScore exactArith [0] L = some s →
            ∀ L' : Int, 1 ≤ L' → L' < L →
              ∃ s', candidateScore exactArith [0] L' = some s' ∧ s < s') := by
  refine ⟨findBlockSize_one_byte, candidateScore_one_byte_one, candidateScore_one_byte_two, ?_⟩
  intro hclaim
  obtain ⟨s', hs', hlt⟩ :=
    hclaim 2 [[0, 0]] 0 findBlockSize_one_byte candidateScore_one_byte_two 1 (by decide) (by decide)
  rw [candidateScore_one_byte_one] at hs'
  cases hs'
  exact lt_irrefl _ hlt

/-- C9 (amended): for a non-empty ciphertext and a range
`1 ≤ minKeyLength ≤ maxKeyLength`, when several candidate key lengths attain the same
minimal normalized score `findBlockSize` returns the largest of them (the last
examined): for the returned `L`, every candidate `L' > L` of the range has a strictly
larger score than `L`, and no candidate of the range has a smaller one. -/
theorem findBlockSize_ties_favor_last (F : Float32Arith) (cipherText : List Byte)
    (hc : cipherText ≠ []) (minKeyLength maxKeyLength : Int) (hmin : 1 ≤ minKeyLength)
    (hmax : minKeyLength ≤ maxKeyLength) :
    ∃ L blocks s, findBlockSize F cipherText minKeyLength maxKeyLength = some (L, blocks)
      ∧ candidateScore F cipherText L = some s
      ∧ (∀ L' : Int, L < L' → L' ≤ maxKeyLength →
          ∃ s', candidateScore F cipherText L' = some s' ∧ s < s')
      ∧ (∀ L' : Int, minKeyLength ≤ L' → L' ≤ maxKeyLength →
          ∃ s', candidateScore F cipherText L' = some s' ∧ s ≤ s') := by
  obtain ⟨L, blocks, s, h1, _, _, _, h5, h6, h7⟩ :=
    findBlockSize_spec F cipherText hc minKeyLength maxKeyLength hmin hmax
  exact ⟨L, blocks, s, h1, h5, h7, h6⟩

/-- Witness of C9 (amended) at the one-byte ciphertext `00` and the range `1..2`. -/
theorem findBlockSize_ties_favor_last_witness :
    ∃ L blocks s, findBlockSize exactArith [0] 1 2 = some (L, blocks)
      ∧ candidateScore exactArith [0] L = some s
      ∧ (∀ L' : Int, L < L' → L' ≤ 2 →
          ∃ s', candidateScore exactArith [0] L' = some s' ∧ s < s')
      ∧ (∀ L' : Int, 1 ≤ L' → L' ≤ 2 →
          ∃ s', candidateScore exactArith [0] L' = some s' ∧ s ≤ s') :=
  findBlockSize_ties_favor_last exactArith [0] (by decide) 1 2 (by decide) (by decide)

theorem getD_mem_of_lt (data : List (List Byte)) (k : Nat) (hk : k < data.length) :
    data.getD k [] ∈ data := by
  rw [getD_eq_get data k hk]
  exact List.get_mem data k hk

theorem sampledDistance_nonneg (data : List (List Byte)) (hdata : data ≠ []) (L : Nat)
    (hlen : ∀ block ∈ data, block.length = L) (spread i : Nat) :
    0 ≤ sampledDistance data spread i := by
  have hpos : 0 < data.length := List.length_pos.mpr hdata
  unfold sampledDistance
  apply CalculateDistance_nonneg_of_length_eq
  rw [hlen _ (getD_mem_of_lt data _ (Nat.mod_lt _ hpos)),
    hlen _ (getD_mem_of_lt data _ (Nat.mod_lt _ hpos))]

theorem sampledSum_nonneg (data : List (List Byte)) (hdata : data ≠ []) (L : Nat)
    (hlen : ∀ block ∈ data, block.length = L) (K : Nat) :
    0 ≤ sampledSum data K := by
  unfold sampledSum
  exact Finset.sum_nonneg (fun i _ => sampledDistance_nonneg data hdata L hlen _ i)

theorem checkAvgHamming_eq_floor (data : List (List Byte)) (hdata : data ≠ []) (L : Nat)
    (hlen : ∀ block ∈ data, block.length = L) (K : Nat) (hK : 0 < K) :
    checkAvgHamming data (K : Int) = some ⌊(sampledSum data K : ℚ) / (K : ℚ)⌋ := by
  rw [checkAvgHamming_eq data hdata K hK, Rat.floor_intCast_div_natCast,
    Int.tdiv_eq_ediv (sampledSum_nonneg data hdata L hlen K) (by omega)]

/-- C10 (as stated) fails: for the partition of ten one-byte blocks `01 00 00 ... 00`
the ten sampled distances sum to 2, so their average is `2/10`, but
`checkAvgHamming` returns the integer quotient 0 and the score compared by
`findBlockSize` for `L = 1` is 0, not `2 / (10 * 1)`. -/
theorem blockScore_not_exact_average :
    tenBlocks ≠ []
      ∧ (∀ block ∈ tenBlocks, block.length = 1)
      ∧ sampledSum tenBlocks 10 = 2
      ∧ checkAvgHamming tenBlocks 10 = some 0
      ∧ blockScore exactArith tenBlocks 1 = some 0
      ∧ blockScore exactArith tenBlocks 1
          ≠ some ((sampledSum tenBlocks 10 : ℚ) / ((10 : ℚ) * ((1 : Int) : ℚ))) := by
  have hsum : sampledSum tenBlocks 10 = 2 := by decide
  have havg : checkAvgHamming tenBlocks 10 = some 0 := by decide
  have hscore : blockScore exactArith tenBlocks 1 = some 0 := by
    simp [blockScore, havg, exactArith]
  refine ⟨by decide, by decide, hsum, havg, hscore, ?_⟩
  rw [hscore, hsum]
  norm_num

/-- C10 (amended): for a partition `data` of `n ≥ 1` equal-length blocks of size `L`
and sample count `K = 10`, `checkAvgHamming` returns the average of the `K` sampled
distances rounded down to an integer, `⌊(sum for i = 1..K of CalculateDistance(
data[(i*spread) mod n], data[((i+1)*spread) mod n])) / K⌋` with `spread = ⌊n / K⌋`, and the
score `findBlockSize` compares for candidate `L` is that integer divided by `L`. -/
theorem blockScore_eq_floor_average (F : Float32Arith) (data : List (List Byte)) (L : Nat)
    (hdata : data ≠ []) (hlen : ∀ block ∈ data, block.length = L) :
    checkAvgHamming data 10 = some ⌊(sampledSum data 10 : ℚ) / 10⌋
      ∧ blockScore F data L
          = some (F.div (F.ofInt ⌊(sampledSum data 10 : ℚ) / 10⌋) (F.ofInt L))
      ∧ blockScore exactArith data L
          = some (((⌊(sampledSum data 10 : ℚ) / 10⌋ : Int) : ℚ) / (L : ℚ)) := by
  have havg : checkAvgHamming data 10 = some ⌊(sampledSum data 10 : ℚ) / 10⌋ := by
    have := checkAvgHamming_eq_floor data hdata L hlen 10 (by decide)
    simpa using this
  refine ⟨havg, ?_, ?_⟩
  · unfold blockScore
    rw [havg]
    rfl
  · unfold blockScore
    rw [havg]
    simp [exactArith]

/-- Witness of C10 (amended) at the ten one-byte blocks `01 00 00 ... 00`. -/
theorem blockScore_eq_floor_average_witness :
    checkAvgHamming tenBlocks 10 = some ⌊(sampledSum tenBlocks 10 : ℚ) / 10⌋
      ∧ blockScore exactArith tenBlocks ((1 : Nat) : Int)
          = some (exactArith.div (exactArith.ofInt ⌊(sampledSum tenBlocks 10 : ℚ) / 10⌋)
              (exactArith.ofInt ((1 : Nat) : Int)))
      ∧ blockScore exactArith tenBlocks ((1 : Nat) : Int)
          = some (((⌊(sampledSum tenBlocks 10 : ℚ) / 10⌋ : Int) : ℚ) / ((1 : Nat) : ℚ)) :=
  blockScore_eq_floor_average exactArith tenBlocks 1 (by decide) (by decide)

/-! ## `blockCipher` -/

theorem xor_xor_cancel_byte (a b : Byte) : (a ^^^ b) ^^^ b = a := by
  apply Fin.ext
  rw [xor_val, xor_val, Nat.xor_assoc, Nat.xor_self, Nat.xor_zero]

theorem blockCipher_eq (data key : List Byte) (hkey : key ≠ []) :
    blockCipher data key
      = some ((List.range (data.length + (key.length - data.length % key.length) % key.length)).map
          (fun i => (data ++ List.replicate
              ((key.length - data.length % key.length) % key.length) (0 : Byte)).getD i 0
            ^^^ key.getD (i % key.length) 0)) := by
  have hpos : 0 < key.length := List.length_pos.mpr hkey
  have hlt : data.length % key.length < key.length := Nat.mod_lt _ hpos
  unfold blockCipher
  rw [if_neg (by omega)]
  by_cases h0 : data.length % key.length = 0
  · have hpad : (key.length - data.length % key.length) % key.length = 0 := by rw [h0]; simp
    rw [hpad]
    simp only [h0, ne_eq, not_true_eq_false, if_false, List.replicate_zero,
      List.append_nil, add_zero]
  · have hpad : (key.length - data.length % key.length) % key.length
        = key.length - data.length % key.length := Nat.mod_eq_of_lt (by omega)
    simp only [hpad, ne_eq, h0, not_false_eq_true, if_true, List.length_append,
      List.length_replicate]

theorem blockCipher_length (data key e : List Byte) (hkey : key ≠ [])
    (h : blockCipher data key = some e) :
    e.length = data.length + (key.length - data.length % key.length) % key.length := by
  rw [blockCipher_eq data key hkey] at h
  cases h
  simp

theorem blockCipher_of_dvd (data key : List Byte) (hkey : key ≠ [])
    (h0 : data.length % key.length = 0) :
    blockCipher data key
      = some ((List.range data.length).map
          (fun i => data.getD i 0 ^^^ key.getD (i % key.length) 0)) := by
  rw [blockCipher_eq data key hkey]
  have hpad : (key.length - data.length % key.length) % key.length = 0 := by rw [h0]; simp
  simp only [hpad, List.replicate_zero, List.append_nil, add_zero]

theorem map_range_getD (l : List Byte) : (List.range l.length).map (fun i => l.getD i 0) = l := by
  apply List.ext_getElem
  · simp
  · intro n h₁ h₂
    simp [List.getElem?_eq_getElem h₂]

theorem blockCipher_single (data : List Byte) (k : Byte) :
    blockCipher data [k] = some (data.map (fun b => b ^^^ k)) := by
  rw [blockCipher_of_dvd data [k] (by simp) (by simp [Nat.mod_one])]
  congr 1
  apply List.ext_getElem
  · simp
  · intro n h₁ h₂
    have hn : n < data.length := by simpa using h₂
    simp [List.getElem?_eq_getElem hn, Nat.mod_one]

/-- C20: `blockCipher` is its own inverse up to zero padding: for every non-empty key
and every data buffer, `blockCipher(blockCipher(data, key), key)` is `data` followed by
zero bytes up to the next multiple of `len(key)`; it is `data` itself when `len(data)`
is a multiple of `len(key)`; and the output of `blockCipher` has length
`⌈len(data)/len(key)⌉ * len(key)`. -/
theorem blockCipher_involutive (data key : List Byte) (hkey : key ≠ []) :
    ∃ encoded decoded, blockCipher data key = some encoded
      ∧ blockCipher encoded key = some decoded
      ∧ decoded = data ++ List.replicate
          ((key.length - data.length % key.length) % key.length) (0 : Byte)
      ∧ (data.length % key.length = 0 → decoded = data)
      ∧ (encoded.length : Int) = ⌈(data.length : ℚ) / (key.length : ℚ)⌉ * (key.length : Int) := by
  have hpos : 0 < key.length := List.length_pos.mpr hkey
  have hk := length_padded data.length key.length hpos
  set pad := (key.length - data.length % key.length) % key.length with hpaddef
  set padded := data ++ List.replicate pad (0 : Byte) with hpadded
  have hplen : padded.length = data.length + pad := by simp [hpadded]
  have henc := blockCipher_eq data key hkey
  rw [← hpaddef, ← hpadded, ← hplen] at henc
  set encoded := (List.range padded.length).map
    (fun i => padded.getD i 0 ^^^ key.getD (i % key.length) 0) with hencoded
  have helen : encoded.length = padded.length := by simp [hencoded]
  have hmod : encoded.length % key.length = 0 := by
    rw [helen, hplen, hk]
    exact Nat.mul_mod_left _ _
  have hdec := blockCipher_of_dvd encoded key hkey hmod
  have hdecoded : (List.range encoded.length).map
      (fun i => encoded.getD i 0 ^^^ key.getD (i % key.length) 0) = padded := by
    apply List.ext_getElem
    · simp [helen]
    · intro n h₁ h₂
      have hn : n < encoded.length := by rw [helen]; exact h₂
      have hn' : n < (List.range padded.length).length := by simpa using h₂
      simp only [List.getElem_map, List.getElem_range]
      rw [List.getD_eq_getElem _ _ hn]
      simp only [hencoded, List.getElem_map, List.getElem_range]
      rw [xor_xor_cancel_byte, List.getD_eq_getElem _ _ h₂]
  refine ⟨encoded, padded, henc, ?_, rfl, ?_, ?_⟩
  · rw [hdec, hdecoded]
  · intro h0
    have : pad = 0 := by rw [hpaddef, h0]; simp
    simp [hpadded, this]
  · rw [helen, hplen, ceil_div_eq data.length key.length hpos]
    exact_mod_cast hk

/-- Witness of C20 at the data `01 02 03 04 05` and the key `"ICE"`. -/
theorem blockCipher_involutive_witness :
    ∃ encoded decoded, blockCipher [1, 2, 3, 4, 5] ice = some encoded
      ∧ blockCipher encoded ice = some decoded
      ∧ decoded = [1, 2, 3, 4, 5] ++ List.replicate
          ((ice.length - ([1, 2, 3, 4, 5] : List Byte).length % ice.length) % ice.length) (0 : Byte)
      ∧ (([1, 2, 3, 4, 5] : List Byte).length % ice.length = 0 → decoded = [1, 2, 3, 4, 5])
      ∧ (encoded.length : Int)
          = ⌈((([1, 2, 3, 4, 5] : List Byte).length : Nat) : ℚ) / ((ice.length : Nat) : ℚ)⌉
              * ((ice.length : Nat) : Int) :=
  blockCipher_involutive [1, 2, 3, 4, 5] ice (by decide)

/-- C13 (as stated) fails: `blockCipher` applied to the 74-byte text and the key `"ICE"`
returns 75 bytes, not the 74 bytes of the hex literal: the text is first padded with
one zero byte, which is encoded as well. -/
theorem blockCipher_burning_not_hexAns :
    burning.length = 74 ∧ hexAns.length = 74
      ∧ blockCipher burning ice ≠ some hexAns
      ∧ (∀ encoded, blockCipher burning ice = some encoded → encoded.length = 75) := by
  have h : blockCipher burning ice = some (hexAns ++ [0x45]) := by decide
  refine ⟨by decide, by decide, ?_, ?_⟩
  · rw [h]; decide
  · intro encoded he
    rw [h] at he
    cases he
    decide

/-- C13 (amended): `blockCipher` applied to the 74-byte text and the key `"ICE"` returns
75 bytes: the 74 bytes of the hex literal followed by the byte `0x45`, the encoding of
the zero byte that pads the text to a multiple of the key length. -/
theorem blockCipher_burning :
    blockCipher burning ice = some (hexAns ++ [0x45])
      ∧ (hexAns ++ [0x45]).length = 75 ∧ (0 : Byte) ^^^ 0x45 = 0x45 := by
  decide

/-! ## `chiSquareEnglish` -/

theorem distribution_nonneg (key : Byte) : 0 ≤ distribution key := by
  unfold distribution
  split <;> norm_num

theorem chiSquareParts_expected_nonneg (len : Nat) (key : Byte) (val : Int) :
    0 ≤ (chiSquareParts len key val).2 := by
  have hn : (0 : ℚ) ≤ (len : ℚ) := Nat.cast_nonneg _
  unfold chiSquareParts
  simp only
  split_ifs
  · positivity
  · exact mul_nonneg (distribution_nonneg _) hn
  · exact mul_nonneg (distribution_nonneg _) hn

theorem chiSquareParts_expected_pos (len : Nat) (hlen : 0 < len) (key : Byte) (val : Int) :
    0 < (chiSquareParts len key val).2 := by
  have hn : (0 : ℚ) < (len : ℚ) := Nat.cast_pos.mpr hlen
  unfold chiSquareParts
  simp only
  split_ifs with h1 h2
  · positivity
  · exact mul_pos (lt_of_le_of_ne (distribution_nonneg _) (Ne.symm h2)) hn
  · exact mul_pos (lt_of_le_of_ne (distribution_nonneg _) (Ne.symm h1)) hn

theorem chiSquareTerm_nonneg (len : Nat) (key : Byte) (val : Int) :
    0 ≤ chiSquareTerm len key val := by
  unfold chiSquareTerm
  exact div_nonneg (mul_self_nonneg _) (chiSquareParts_expected_nonneg len key val)

theorem foldl_chiSquare_eq (len : Nat) (entries : List (Byte × Int)) (init : ℚ) :
    entries.foldl (fun chiDist entry => chiDist + chiSquareTerm len entry.1 entry.2) init
      = init + (entries.map (fun entry => chiSquareTerm len entry.1 entry.2)).sum := by
  induction entries generalizing init with
  | nil => simp
  | cons x xs ih => simp [ih, add_assoc]

theorem chiSquareEnglish_eq_sum (plainText : List Byte) :
    chiSquareEnglish plainText
      = ((countBytes plainText).map
          (fun entry => chiSquareTerm plainText.length entry.1 entry.2)).sum := by
  unfold chiSquareEnglish
  rw [foldl_chiSquare_eq, zero_add]

/-- C15: in exact (rational) arithmetic `chiSquareEnglish` returns a non-negative
number for every byte buffer and `0` for the empty buffer, and for a non-empty
buffer the divisor `expected` of the term of every byte value (with every count) is
strictly positive. -/
theorem chiSquareEnglish_nonneg (plainText : List Byte) :
    0 ≤ chiSquareEnglish plainText
      ∧ chiSquareEnglish [] = 0
      ∧ (plainText ≠ [] → ∀ (key : Byte) (val : Int),
          0 < (chiSquareParts plainText.length key val).2) := by
  refine ⟨?_, ?_, ?_⟩
  · rw [chiSquareEnglish_eq_sum]
    apply List.sum_nonneg
    intro x hx
    rw [List.mem_map] at hx
    obtain ⟨entry, _, rfl⟩ := hx
    exact chiSquareTerm_nonneg _ _ _
  · rfl
  · intro hne key val
    exact chiSquareParts_expected_pos _ (List.length_pos.mpr hne) key val

/-- Witness of C15 at the buffer `"this is a test"` and the byte `0xE5`, for which
`key + 0x20` wraps around to `0x05`. -/
theorem chiSquareEnglish_nonneg_witness :
    0 < (chiSquareParts thisIsATest.length 0xE5 3).2 :=
  (chiSquareEnglish_nonneg thisIsATest).2.2 (by decide) 0xE5 3

theorem distribution_flat : ∀ key : Byte, isLetter key = false → key ≠ 0x20 → key ≠ 0x00 →
    distribution key = 0 ∧ distribution (key + 0x20) = 0 := by
  decide!

theorem chiSquareParts_flat (len : Nat) (key : Byte) (val : Int)
    (hletter : isLetter key = false) (hspace : key ≠ 0x20) (hzero : key ≠ 0x00) :
    chiSquareParts len key val = ((val : ℚ) - 0.0005 * (len : ℚ), 0.0005 * (len : ℚ)) := by
  obtain ⟨h1, h2⟩ := distribution_flat key hletter hspace hzero
  unfold chiSquareParts
  simp only [h1, h2, if_true]

/-- C14 fails on the code for the byte `0x00`: `0x00 + 0x20` is the space character,
which is in the table, so for a buffer that holds `0x00` the loop takes the
upper-case branch: `expected` is `0.120861 * n` and `diff` is
`count - expected + 1`, not the flat `0.0005 * n`. For the one-byte buffer `00` the
score is `(1 - 0.120861 + 1)^2 / 0.120861`. For every other byte value that is neither
a letter nor the space the term is the flat one of the claim. -/
theorem chiSquareTerm_zero_byte :
    chiSquareParts 1 0x00 1 = (((1 : ℚ) - 0.120861 * 1) + 1, 0.120861 * 1)
      ∧ chiSquareEnglish [0x00] = ((1 : ℚ) - 0.120861 * 1 + 1) ^ 2 / (0.120861 * 1)
      ∧ chiSquareEnglish [0x00] ≠ ((1 : ℚ) - 0.0005 * 1) ^ 2 / (0.0005 * 1)
      ∧ (∀ (len : Nat) (key : Byte) (val : Int),
          isLetter key = false → key ≠ 0x20 → key ≠ 0x00 →
          chiSquareTerm len key val
            = ((val : ℚ) - 0.0005 * (len : ℚ)) ^ 2 / (0.0005 * (len : ℚ))) := by
  refine ⟨by decide!, by decide!, by decide!, ?_⟩
  intro len key val h1 h2 h3
  unfold chiSquareTerm
  rw [chiSquareParts_flat len key val h1 h2 h3]
  simp only
  rw [sq]

/-- Witness of the last part of C14 at the comma `0x2C`, three occurrences in a
buffer of 25 bytes. -/
theorem chiSquareTerm_zero_byte_witness :
    chiSquareTerm 25 0x2C 3 = (((3 : Int) : ℚ) - 0.0005 * ((25 : Nat) : ℚ)) ^ 2 / (0.0005 * ((25 : Nat) : ℚ)) :=
  chiSquareTerm_zero_byte.2.2.2 25 0x2C 3 (by decide) (by decide) (by decide)

/-! ## `bruteForceSingleByte` -/

theorem byte_val_add_one (key : Byte) (h : key.val ≤ 128) : (key + 0x01).val = key.val + 1 := by
  rw [Fin.val_add]
  show (key.val + 1) % 256 = key.val + 1
  exact Nat.mod_eq_of_lt (by omega)

theorem bruteForceSingleByteLoopWith_spec (score : Nat → List Byte → ℚ)
    (cipherText : List Byte) (fuel : Nat) (key : Byte)
    (best : List Byte × Byte × ℚ) (hkey1 : 1 ≤ key.val) (hkey2 : key.val ≤ 129)
    (hfuel : 130 ≤ fuel + key.val)
    (hinv : BestKeySoFarWith score cipherText key.val best) :
    ∃ best', bruteForceSingleByteLoopWith score cipherText fuel key best = some best'
      ∧ BestKeySoFarWith score cipherText 129 best' := by
  induction fuel generalizing key best with
  | zero => omega
  | succ fuel ih =>
    obtain ⟨bestPlaintext, bestKey, minChiSquare⟩ := best
    obtain ⟨h1, h2, h3, h4, h0, h5, h6⟩ := hinv
    simp only at h1 h2 h3 h4 h0 h5 h6
    unfold bruteForceSingleByteLoopWith
    by_cases hle : key.val ≤ 128
    · have hcond : key ≤ 0x80 := Fin.le_def.mpr hle
      have hnext := byte_val_add_one key hle
      rw [if_pos hcond, blockCipher_single]
      simp only
      by_cases hlt : score key.val (cipherText.map (fun b => b ^^^ key)) < minChiSquare
      · rw [if_pos hlt]
        apply ih
        · omega
        · omega
        · omega
        · rw [hnext]
          refine ⟨hkey1, hle, rfl, Or.inl rfl, le_trans (le_of_lt hlt) h0, ?_, ?_⟩
          · intro k' hk1 hk2
            simp only
            rcases (show k'.val < key.val ∨ k'.val = key.val by omega) with hlt' | heq
            · exact le_trans (le_of_lt hlt) (h5 k' hk1 hlt')
            · rw [Fin.ext heq]
          · intro k' hk1 hk2
            simp only at hk2 ⊢
            exact lt_of_lt_of_le hlt (h5 k' hk1 hk2)
      · rw [if_neg hlt]
        apply ih
        · omega
        · omega
        · omega
        · rw [hnext]
          refine ⟨h1, h2, h3, h4, h0, ?_, h6⟩
          intro k' hk1 hk2
          simp only
          rcases (show k'.val < key.val ∨ k'.val = key.val by omega) with hlt' | heq
          · exact h5 k' hk1 hlt'
          · rw [Fin.ext heq]
            exact not_lt.mp hlt
    · have hcond : ¬ key ≤ 0x80 := fun hc => hle (Fin.le_def.mp hc)
      rw [if_neg hcond]
      have hk : key.val = 129 := by omega
      rw [hk] at h5
      exact ⟨_, rfl, h1, h2, h3, h4, h0, h5, h6⟩

theorem bruteForceSingleByteWith_spec (score : Nat → List Byte → ℚ) (cipherText : List Byte) :
    ∃ p k s, bruteForceSingleByteWith score cipherText = some (p, k, s)
      ∧ BestKeySoFarWith score cipherText 129 (p, k, s) := by
  unfold bruteForceSingleByteWith
  rw [blockCipher_single]
  simp only
  have hinit : BestKeySoFarWith score cipherText (0x01 : Byte).val
      (cipherText.map (fun b => b ^^^ 0x01), 0x01,
        score 0 (cipherText.map (fun b => b ^^^ 0x01))) := by
    refine ⟨show 1 ≤ (0x01 : Byte).val by decide, show (0x01 : Byte).val ≤ 128 by decide,
      rfl, Or.inr ⟨rfl, rfl⟩, le_refl _, ?_, ?_⟩
    · intro k' hk1 hk2
      have : (0x01 : Byte).val = 1 := rfl
      omega
    · intro k' hk1 hk2
      have : (0x01 : Byte).val = 1 := rfl
      simp only at hk2
      omega
  obtain ⟨⟨p, k, s⟩, hloop, hinv⟩ :=
    bruteForceSingleByteLoopWith_spec score cipherText 256 0x01 _ (by decide) (by decide)
      (by decide) hinit
  exact ⟨p, k, s, hloop, hinv⟩

theorem bruteForceSingleByte_spec (cipherText : List Byte) :
    ∃ p k s, bruteForceSingleByte cipherText = some (p, k, s)
      ∧ BestKeySoFar cipherText 129 (p, k, s) := by
  obtain ⟨p, k, s, hres, h1, h2, h3, h4, _, h5, h6⟩ :=
    bruteForceSingleByteWith_spec (fun _ => chiSquareEnglish) cipherText
  simp only at h1 h2 h3 h4 h5 h6
  refine ⟨p, k, s, hres, h1, h2, h3, ?_, h5, h6⟩
  rcases h4 with h | ⟨_, h⟩
  · exact h
  · exact h

theorem bruteForceSingleByteWith_key_eq (score : Nat → List Byte → ℚ) (c : List Byte)
    (key : Byte) (h1 : 1 ≤ key.val) (h2 : key.val ≤ 128)
    (hfirst : key.val = 1 ∨ score key.val (c.map (fun b => b ^^^ key))
      < score 0 (c.map (fun b => b ^^^ 0x01)))
    (hle : ∀ other : Byte, 1 ≤ other.val → other.val ≤ 128 →
      score key.val (c.map (fun b => b ^^^ key)) ≤ score other.val (c.map (fun b => b ^^^ other)))
    (hlt : ∀ other : Byte, 1 ≤ other.val → other.val < key.val →
      score key.val (c.map (fun b => b ^^^ key)) < score other.val (c.map (fun b => b ^^^ other))) :
    ∃ p s, bruteForceSingleByteWith score c = some (p, key, s) := by
  obtain ⟨p, k, s, hres, hk1, hk2, hp, hs, h0, hle', hlt'⟩ :=
    bruteForceSingleByteWith_spec score c
  simp only at hk1 hk2 hp hs h0 hle' hlt'
  have hk : k = key := by
    rcases hs with hs | ⟨hk1', hs⟩
    · rw [hp] at hs
      rcases Nat.lt_trichotomy k.val key.val with hkk | hkk | hkk
      · have ha := hlt k hk1 hkk
        have hb := hle' key h1 (by omega)
        rw [hs] at hb
        exact absurd (lt_of_lt_of_le ha hb) (lt_irrefl _)
      · exact Fin.ext hkk
      · have ha := hle k hk1 hk2
        have hb := hlt' key h1 hkk
        rw [hs] at hb
        exact absurd (lt_of_lt_of_le hb ha) (lt_irrefl _)
    · rcases hfirst with hf | hf
      · exact Fin.ext (hk1'.trans hf.symm)
      · have hb := hle' key h1 (by omega)
        have hk01 : k = 0x01 := Fin.ext hk1'
        rw [hs, hp, hk01] at hb
        exact absurd (lt_of_lt_of_le hf hb) (lt_irrefl _)
  rw [hk] at hres
  exact ⟨p, s, hres⟩

/-- C11: for every byte stream `c`, and whatever values the calls of `chiSquareEnglish`
return, `bruteForceSingleByte c` returns `(p, k, s)` with `0x01 ≤ k ≤ 0x80`, `p` of the
length of `c` with `p[i] = c[i] XOR k` for every `i`, `s` the score that
`chiSquareEnglish` returned for `p`, `s` not above the score computed for `c XOR k'` for
any key `k'` in `0x01..0x80`, and a strictly larger score computed for every `k'` with
`0x01 ≤ k' < k` (first-found wins ties). When the score is a function of the text
alone, `s` is its value at `p`. -/
theorem bruteForceSingleByte_minimal (score : Nat → List Byte → ℚ) (c : List Byte) :
    ∃ p k s, bruteForceSingleByteWith score c = some (p, k, s)
      ∧ 0x01 ≤ k ∧ k ≤ 0x80
      ∧ p.length = c.length
      ∧ (∀ i : Nat, i < c.length → p.getD i 0 = c.getD i 0 ^^^ k)
      ∧ (s = score k.val p ∨ (k = 0x01 ∧ s = score 0 p))
      ∧ (∀ f : List Byte → ℚ, (∀ n, score n = f) → s = f p)
      ∧ s ≤ score 0 (c.map (fun b => b ^^^ 0x01))
      ∧ (∀ k' : Byte, 0x01 ≤ k' → k' ≤ 0x80 →
          s ≤ score k'.val (c.map (fun b => b ^^^ k')))
      ∧ (∀ k' : Byte, 0x01 ≤ k' → k' < k →
          s < score k'.val (c.map (fun b => b ^^^ k'))) := by
  obtain ⟨p, k, s, hres, h1, h2, h3, h4, h0, h5, h6⟩ := bruteForceSingleByteWith_spec score c
  simp only at h1 h2 h3 h4 h0 h5 h6
  have h4' : s = score k.val p ∨ (k = 0x01 ∧ s = score 0 p) := by
    rcases h4 with h | ⟨hk, h⟩
    · exact Or.inl h
    · exact Or.inr ⟨Fin.ext hk, h⟩
  refine ⟨p, k, s, hres, Fin.le_def.mpr h1, Fin.le_def.mpr h2, ?_, ?_, h4', ?_, h0, ?_, ?_⟩
  · rw [h3, List.length_map]
  · intro i hi
    rw [h3]
    simp [List.getElem?_eq_getElem hi]
  · intro f hf
    rcases h4' with h | ⟨_, h⟩
    · rw [h, hf]
    · rw [h, hf]
  · intro k' hk1 hk2
    have h128 : (0x80 : Byte).val = 128 := rfl
    exact h5 k' (Fin.le_def.mp hk1) (by have := Fin.le_def.mp hk2; omega)
  · intro k' hk1 hk2
    exact h6 k' (Fin.le_def.mp hk1) (Fin.lt_def.mp hk2)

/-- Witness of C11 at the three-byte stream `0b 27 2e`, with exact scores. -/
theorem bruteForceSingleByte_minimal_witness :
    ∃ p k s, bruteForceSingleByte [0x0b, 0x27, 0x2e] = some (p, k, s)
      ∧ 0x01 ≤ k ∧ k ≤ 0x80
      ∧ p.length = ([0x0b, 0x27, 0x2e] : List Byte).length
      ∧ (∀ i : Nat, i < ([0x0b, 0x27, 0x2e] : List Byte).length →
          p.getD i 0 = ([0x0b, 0x27, 0x2e] : List Byte).getD i 0 ^^^ k)
      ∧ (s = chiSquareEnglish p ∨ (k = 0x01 ∧ s = chiSquareEnglish p))
      ∧ (∀ f : List Byte → ℚ, (∀ _n : Nat, chiSquareEnglish = f) → s = f p)
      ∧ s ≤ chiSquareEnglish (([0x0b, 0x27, 0x2e] : List Byte).map (fun b => b ^^^ 0x01))
      ∧ (∀ k' : Byte, 0x01 ≤ k' → k' ≤ 0x80 →
          s ≤ chiSquareEnglish (([0x0b, 0x27, 0x2e] : List Byte).map (fun b => b ^^^ k')))
      ∧ (∀ k' : Byte, 0x01 ≤ k' → k' < k →
          s < chiSquareEnglish (([0x0b, 0x27, 0x2e] : List Byte).map (fun b => b ^^^ k'))) :=
  bruteForceSingleByte_minimal (fun _ => chiSquareEnglish) [0x0b, 0x27, 0x2e]

/-! ## Ranges and degenerate samples -/

theorem splitBlocks_props (data : List Byte) (n : Nat) (hn : 0 < n) :
    ∃ blocks, splitBlocks data (n : Int) = some blocks
      ∧ (∀ block ∈ blocks, block.length = n)
      ∧ blocks.length = (data.length + (n - data.length % n) % n) / n
      ∧ blocks.flatten = data ++ List.replicate ((n - data.length % n) % n) (0 : Byte) := by
  have hlen : (data ++ List.replicate ((n - data.length % n) % n) (0 : Byte)).length
      = ((data.length + (n - data.length % n) % n) / n) * n := by
    rw [List.length_append, List.length_replicate]
    exact length_padded data.length n hn
  refine ⟨_, splitBlocks_natCast data n hn, ?_, ?_, flatten_chunks n _ _ hlen⟩
  · intro block hblock
    rw [List.mem_map] at hblock
    obtain ⟨i, hi, rfl⟩ := hblock
    rw [List.mem_range] at hi
    exact length_chunk n _ i _ hlen hi
  · rw [List.length_map, List.length_range]

theorem splitBlocks_eq_nil_of_lt_one (data : List Byte) (blockSize : Int) (h : blockSize < 1)
    (blocks : List (List Byte)) (hsplit : splitBlocks data blockSize = some blocks) :
    blocks = [] := by
  unfold splitBlocks at hsplit
  by_cases h0 : blockSize = 0
  · rw [if_pos h0] at hsplit
    cases hsplit
  · rw [if_neg h0] at hsplit
    have hneg : blockSize < 0 := by omega
    have hr : 0 ≤ Int.tmod (data.length : Int) blockSize :=
      Int.tmod_nonneg _ (Int.natCast_nonneg _)
    simp only at hsplit
    by_cases hr0 : Int.tmod (data.length : Int) blockSize = 0
    · simp only [hr0, ne_eq, not_true_eq_false, false_and, if_false] at hsplit
      have hq : Int.tdiv (data.length : Int) blockSize ≤ 0 :=
        Int.tdiv_nonpos (Int.natCast_nonneg _) (by omega)
      by_cases hq0 : Int.tdiv (data.length : Int) blockSize < 0
      · rw [if_pos hq0] at hsplit
        cases hsplit
      · rw [if_neg hq0] at hsplit
        have : Int.tdiv (data.length : Int) blockSize = 0 := by omega
        rw [this] at hsplit
        simpa using hsplit.symm
    · rw [if_pos ⟨hr0, by omega⟩] at hsplit
      cases hsplit

theorem findBlockSize_of_lt_one (F : Float32Arith) (cipherText : List Byte)
    (minKeyLength maxKeyLength : Int) (h : minKeyLength < 1) :
    findBlockSize F cipherText minKeyLength maxKeyLength = none := by
  unfold findBlockSize
  cases hsplit : splitBlocks cipherText minKeyLength with
  | none => rfl
  | some blocks =>
    have hnil := splitBlocks_eq_nil_of_lt_one cipherText minKeyLength h blocks hsplit
    subst hnil
    have : blockScore F [] minKeyLength = none := rfl
    simp only [this]

theorem findBlockSize_of_max_lt_min (F : Float32Arith) (cipherText : List Byte)
    (hc : cipherText ≠ []) (minKeyLength maxKeyLength : Int) (hmin : 1 ≤ minKeyLength)
    (hmax : maxKeyLength < minKeyLength) :
    ∃ blocks, splitBlocks cipherText minKeyLength = some blocks
      ∧ findBlockSize F cipherText minKeyLength maxKeyLength = some (minKeyLength, blocks) := by
  obtain ⟨blocks, s, hsplit, hscore, _⟩ :=
    candidateScore_of_nonempty F cipherText hc minKeyLength hmin
  refine ⟨blocks, hsplit, ?_⟩
  unfold findBlockSize
  have h0 : (maxKeyLength - minKeyLength).toNat = 0 := by omega
  simp only [hsplit, hscore, h0, findBlockSizeLoop, Option.map_some']

theorem findBlockSize_inverted_one_byte :
    findBlockSize exactArith [0] 2 1 = some (2, [[0, 0]]) := by
  obtain ⟨blocks, hsplit, hres⟩ :=
    findBlockSize_of_max_lt_min exactArith [0] (by decide) 2 1 (by decide) (by decide)
  have h3 : splitBlocks [0] 2 = some [[0, 0]] := by decide
  rw [h3] at hsplit
  cases hsplit
  exact hres

/-- C16 (as stated) fails: for the one-byte ciphertext `00` and the inverted range
`minKeyLength = 2`, `maxKeyLength = 1`, `findBlockSize` reports no failure and returns
the key length 2 with its partition. -/
theorem findBlockSize_inverted_range_returns :
    (1 : Int) < 2
      ∧ findBlockSize exactArith [0] 2 1 = some (2, [[0, 0]])
      ∧ findBlockSize exactArith [0] 2 1 ≠ none := by
  refine ⟨by decide, findBlockSize_inverted_one_byte, ?_⟩
  rw [findBlockSize_inverted_one_byte]
  exact Option.some_ne_none _

/-- C16 (amended): `findBlockSize` fails (by a run-time panic) whenever
`minKeyLength < 1`, and never returns a key length and partition for such a range;
when `1 ≤ minKeyLength` and `maxKeyLength < minKeyLength` it makes no check: for a
non-empty ciphertext it returns `minKeyLength` and
`splitBlocks(cipherText, minKeyLength)`. -/
theorem findBlockSize_invalid_range (F : Float32Arith) (cipherText : List Byte)
    (minKeyLength maxKeyLength : Int) :
    (minKeyLength < 1 → findBlockSize F cipherText minKeyLength maxKeyLength = none)
      ∧ (cipherText ≠ [] → 1 ≤ minKeyLength → maxKeyLength < minKeyLength →
          ∃ blocks, splitBlocks cipherText minKeyLength = some blocks
            ∧ findBlockSize F cipherText minKeyLength maxKeyLength
                = some (minKeyLength, blocks)) :=
  ⟨findBlockSize_of_lt_one F cipherText minKeyLength maxKeyLength,
    fun hc hmin hmax =>
      findBlockSize_of_max_lt_min F cipherText hc minKeyLength maxKeyLength hmin hmax⟩

/-- Witness of C16 (amended): the range `0..5` fails and the inverted range `3..1`
returns the key length 3, for the ciphertext `"this is a test"`. -/
theorem findBlockSize_invalid_range_witness :
    findBlockSize exactArith thisIsATest 0 5 = none
      ∧ ∃ blocks, splitBlocks thisIsATest 3 = some blocks
          ∧ findBlockSize exactArith thisIsATest 3 1 = some (3, blocks) :=
  ⟨(findBlockSize_invalid_range exactArith thisIsATest 0 5).1 (by decide),
    (findBlockSize_invalid_range exactArith thisIsATest 3 1).2 (by decide) (by decide)
      (by decide)⟩

theorem CalculateDistance_self (a : List Byte) : CalculateDistance a a = 0 := by
  rw [CalculateDistance_of_length_eq a a rfl]
  exact (zipWith_Distance_eq_zero a a rfl).mpr rfl

theorem checkAvgHamming_of_few_blocks (data : List (List Byte)) (hdata : data ≠ []) (K : Nat)
    (hK : 0 < K) (hlt : data.length < K) :
    checkAvgHamming data (K : Int) = some 0 := by
  rw [checkAvgHamming_eq data hdata K hK]
  have hspread : data.length / K = 0 := Nat.div_eq_of_lt hlt
  have hsum : sampledSum data K = 0 := by
    unfold sampledSum
    apply Finset.sum_eq_zero
    intro i _
    unfold sampledDistance
    rw [hspread, Nat.mul_zero, Nat.mul_zero]
    exact CalculateDistance_self _
  rw [hsum, Int.zero_tdiv]

/-- C17: for every non-empty list `data` of blocks (of equal length or not) and every
accuracy `K ≥ 1` with `len(data) < K`, `checkAvgHamming(data, K)` returns 0; hence in
`findBlockSize` every candidate length `L ≥ 1` with `⌈len(cipherText)/L⌉ < 10` gets,
for a non-empty ciphertext, the normalized score `float32(0) / float32(L)`, which is
0 in exact arithmetic. -/
theorem checkAvgHamming_eq_zero_of_few_blocks (data : List (List Byte)) (K : Int)
    (hdata : data ≠ []) (hK : 1 ≤ K) (hlt : (data.length : Int) < K) :
    checkAvgHamming data K = some 0
      ∧ (∀ (F : Float32Arith) (cipherText : List Byte) (L : Int),
          cipherText ≠ [] → 1 ≤ L → ⌈(cipherText.length : ℚ) / (L : ℚ)⌉ < 10 →
          candidateScore F cipherText L = some (F.div (F.ofInt 0) (F.ofInt L))
            ∧ candidateScore exactArith cipherText L = some 0) := by
  constructor
  · lift K to Nat using (by omega)
    exact checkAvgHamming_of_few_blocks data hdata K (by omega) (by exact_mod_cast hlt)
  · intro F cipherText L hc hL hceil
    lift L to Nat using (by omega)
    have hn : 0 < L := by omega
    obtain ⟨blocks, hsplit, _, hcount, _⟩ := splitBlocks_props cipherText L hn
    obtain ⟨blocks', hsplit', hne⟩ := splitBlocks_of_nonempty cipherText hc (L : Int) hL
    rw [hsplit] at hsplit'
    cases hsplit'
    have hfew : blocks.length < 10 := by
      have hc' := ceil_div_eq cipherText.length L hn
      rw [Int.cast_natCast, hc', ← hcount] at hceil
      exact_mod_cast hceil
    have havg : checkAvgHamming blocks 10 = some 0 :=
      checkAvgHamming_of_few_blocks blocks hne 10 (by decide) hfew
    have hscore : ∀ G : Float32Arith,
        candidateScore G cipherText (L : Int) = some (G.div (G.ofInt 0) (G.ofInt (L : Int))) := by
      intro G
      unfold candidateScore blockScore
      rw [hsplit, Option.some_bind, havg]
      rfl
    refine ⟨hscore F, ?_⟩
    rw [hscore exactArith]
    simp [exactArith]

/-- Witness of C17 at one block and accuracy 10, and at the ciphertext
`"this is a test"` with candidate length 3 (five blocks). -/
theorem checkAvgHamming_eq_zero_of_few_blocks_witness :
    checkAvgHamming [thisIsATest] 10 = some 0
      ∧ candidateScore exactArith thisIsATest 3 = some 0 :=
  ⟨(checkAvgHamming_eq_zero_of_few_blocks [thisIsATest] 10 (by decide) (by decide)
      (by decide)).1,
    ((checkAvgHamming_eq_zero_of_few_blocks [thisIsATest] 10 (by decide) (by decide)
      (by decide)).2 exactArith thisIsATest 3 (by decide) (by decide)
      (by
        have h : ⌈((14 : Nat) : ℚ) / ((3 : Int) : ℚ)⌉ = 5 := by
          rw [Int.ceil_eq_iff]
          norm_num
        have hlen : thisIsATest.length = 14 := by decide
        rw [hlen, h]
        decide)).2⟩

theorem sampledDistance_le (data : List (List Byte)) (hdata : data ≠ []) (L : Nat)
    (hlen : ∀ block ∈ data, block.length = L) (spread i : Nat) :
    sampledDistance data spread i ≤ 8 * (L : Int) := by
  have hpos : 0 < data.length := List.length_pos.mpr hdata
  have h1 := hlen _ (getD_mem_of_lt data _ (Nat.mod_lt (i * spread) hpos))
  have h2 := hlen _ (getD_mem_of_lt data _ (Nat.mod_lt ((i + 1) * spread) hpos))
  unfold sampledDistance
  rw [CalculateDistance_of_length_eq _ _ (h1.trans h2.symm), ← h1]
  exact zipWith_Distance_le _ _

theorem sampledSum_le (data : List (List Byte)) (hdata : data ≠ []) (L : Nat)
    (hlen : ∀ block ∈ data, block.length = L) (K : Nat) :
    sampledSum data K ≤ 8 * (L : Int) * (K : Int) := by
  unfold sampledSum
  have h := Finset.sum_le_card_nsmul (Finset.Icc 1 K)
    (fun i => sampledDistance data (data.length / K) i) (8 * (L : Int))
    (fun i _ => sampledDistance_le data hdata L hlen _ i)
  rw [Nat.card_Icc, Nat.add_sub_cancel, nsmul_eq_mul] at h
  linarith

/-- C18: for every non-empty ciphertext `c`, every `blockSize ≥ 1` and every accuracy
`K ≥ 1`, `checkAvgHamming(splitBlocks(c, blockSize), K)` returns: for every
`i` in `1..K` the two indices the loop computes are in range, the two blocks it
reads have the same length, and their distance is not the mismatch value `-1`; the
result lies in `[0, 8 * blockSize]`. -/
theorem checkAvgHamming_splitBlocks_safe (c : List Byte) (blockSize K : Int)
    (hc : c ≠ []) (hbs : 1 ≤ blockSize) (hK : 1 ≤ K) :
    ∃ blocks avg, splitBlocks c blockSize = some blocks
      ∧ checkAvgHamming blocks K = some avg
      ∧ (∀ i : Int, 1 ≤ i → i ≤ K →
          ∃ x y, index? blocks (Int.tmod (i * Int.tdiv blocks.length K) blocks.length) = some x
            ∧ index? blocks (Int.tmod ((i + 1) * Int.tdiv blocks.length K) blocks.length)
                = some y
            ∧ x.length = y.length ∧ CalculateDistance x y ≠ -1)
      ∧ 0 ≤ avg ∧ avg ≤ 8 * blockSize := by
  lift blockSize to Nat using (by omega)
  lift K to Nat using (by omega)
  have hn : 0 < blockSize := by omega
  have hKpos : 0 < K := by omega
  obtain ⟨blocks, hsplit, hlen, _, _⟩ := splitBlocks_props c blockSize hn
  obtain ⟨blocks', hsplit', hne⟩ := splitBlocks_of_nonempty c hc (blockSize : Int) hbs
  rw [hsplit] at hsplit'
  cases hsplit'
  have hpos : 0 < blocks.length := List.length_pos.mpr hne
  have h0 := sampledSum_nonneg blocks hne blockSize hlen K
  have h8 := sampledSum_le blocks hne blockSize hlen K
  refine ⟨blocks, _, hsplit, checkAvgHamming_eq blocks hne K hKpos, ?_, ?_, ?_⟩
  · intro i hi1 hi2
    lift i to Nat using (by omega)
    have hs : Int.tdiv (blocks.length : Int) (K : Int) = ((blocks.length / K : Nat) : Int) :=
      (Int.ofNat_tdiv _ _).symm
    have e1 : Int.tmod ((i : Int) * ((blocks.length / K : Nat) : Int)) (blocks.length : Int)
        = (((i * (blocks.length / K)) % blocks.length : Nat) : Int) := by
      rw [← Nat.cast_mul, Int.ofNat_tmod]
    have e2 : Int.tmod (((i : Int) + 1) * ((blocks.length / K : Nat) : Int)) (blocks.length : Int)
        = ((((i + 1) * (blocks.length / K)) % blocks.length : Nat) : Int) := by
      have : ((i : Int) + 1) * ((blocks.length / K : Nat) : Int)
          = (((i + 1) * (blocks.length / K) : Nat) : Int) := by push_cast; ring
      rw [this, Int.ofNat_tmod]
    have hi1' : (i * (blocks.length / K)) % blocks.length < blocks.length := Nat.mod_lt _ hpos
    have hi2' : ((i + 1) * (blocks.length / K)) % blocks.length < blocks.length :=
      Nat.mod_lt _ hpos
    rw [hs, e1, e2, index?_natCast blocks _ hi1', index?_natCast blocks _ hi2']
    have hx := hlen _ (List.get_mem blocks _ hi1')
    have hy := hlen _ (List.get_mem blocks _ hi2')
    refine ⟨_, _, rfl, rfl, hx.trans hy.symm, ?_⟩
    have := CalculateDistance_nonneg_of_length_eq _ _ (hx.trans hy.symm)
    omega
  · rw [Int.tdiv_eq_ediv h0 (by omega)]
    exact Int.ediv_nonneg h0 (by omega)
  · rw [Int.tdiv_eq_ediv h0 (by omega)]
    exact Int.ediv_le_of_le_mul (by omega) h8

/-- Witness of C18 at the ciphertext `"this is a test"`, block size 3 and accuracy 2. -/
theorem checkAvgHamming_splitBlocks_safe_witness :
    ∃ blocks avg, splitBlocks thisIsATest 3 = some blocks
      ∧ checkAvgHamming blocks 2 = some avg
      ∧ (∀ i : Int, 1 ≤ i → i ≤ 2 →
          ∃ x y, index? blocks (Int.tmod (i * Int.tdiv blocks.length 2) blocks.length) = some x
            ∧ index? blocks (Int.tmod ((i + 1) * Int.tdiv blocks.length 2) blocks.length)
                = some y
            ∧ x.length = y.length ∧ CalculateDistance x y ≠ -1)
      ∧ 0 ≤ avg ∧ avg ≤ 8 * 3 :=
  checkAvgHamming_splitBlocks_safe thisIsATest 3 2 (by decide) (by decide) (by decide)

/-! ## `bruteForceKey` -/

theorem column?_eq (i : Nat) (blocks : List (List Byte)) (h : ∀ block ∈ blocks, i < block.length) :
    column? i blocks = some (blocks.map (fun block => block.getD i 0)) := by
  induction blocks with
  | nil => rfl
  | cons block rest ih =>
    have hi : i < block.length := h block (List.mem_cons_self _ _)
    have hrest := ih (fun b hb => h b (List.mem_cons_of_mem _ hb))
    unfold column?
    rw [List.getElem?_eq_getElem hi, hrest]
    simp [List.getElem?_eq_getElem hi]

theorem transposeLoop_eq (blocks : List (List Byte)) (n : Nat)
    (hlen : ∀ block ∈ blocks, block.length = n) (m i : Nat) (hm : i + m ≤ n) :
    transposeLoop blocks m i
      = some ((List.range m).map (fun j => blocks.map (fun block => block.getD (i + j) 0))) := by
  induction m generalizing i with
  | zero => rfl
  | succ m ih =>
    unfold transposeLoop
    rw [column?_eq i blocks (fun b hb => by rw [hlen b hb]; omega), ih (i + 1) (by omega)]
    simp only [List.range_succ_eq_map, List.map_cons, List.map_map, Nat.add_zero]
    congr 2
    apply List.map_congr_left
    intro j _
    simp only [Function.comp]
    rw [show i + 1 + j = i + j.succ by omega]

theorem solveGroups_eq (groups : List (List Byte)) :
    solveGroups groups
      = some (groups.map (fun group => group.map (fun b => b ^^^ groupKey group)),
          groups.map groupKey) := by
  induction groups with
  | nil => rfl
  | cons group rest ih =>
    obtain ⟨p, k, s, hres, _, _, hp, _⟩ := bruteForceSingleByte_spec group
    simp only at hp
    have hk : groupKey group = k := by
      unfold groupKey
      rw [hres]
    unfold solveGroups
    rw [hres, ih]
    simp only [List.map_cons, hk, hp]

theorem groupKey_spec (group : List Byte) :
    ∃ p s, bruteForceSingleByte group = some (p, groupKey group, s) := by
  obtain ⟨p, k, s, hres, _⟩ := bruteForceSingleByte_spec group
  have hk : groupKey group = k := by
    unfold groupKey
    rw [hres]
  exact ⟨p, s, hk ▸ hres⟩

theorem set_take_append_drop (t b : List Byte) (i : Nat) (ht : i < t.length) (hb : i < b.length) :
    (t.take i ++ b.drop i).set i (t.getD i 0) = t.take (i + 1) ++ b.drop (i + 1) := by
  induction i generalizing t b with
  | zero =>
    cases t with
    | nil => simp at ht
    | cons t0 ts =>
      cases b with
      | nil => simp at hb
      | cons b0 bs => simp
  | succ i ih =>
    cases t with
    | nil => simp at ht
    | cons t0 ts =>
      cases b with
      | nil => simp at hb
      | cons b0 bs =>
        have := ih ts bs (by simpa using ht) (by simpa using hb)
        simpa using this

theorem writeColumn?_mix (i n : Nat) (hi : i < n) (target blocks : List (List Byte))
    (hlen : target.length = blocks.length)
    (ht : ∀ t ∈ target, t.length = n) (hb : ∀ b ∈ blocks, b.length = n) :
    writeColumn? i (List.zipWith (fun t b => t.take i ++ b.drop i) target blocks)
        (target.map (fun t => t.getD i 0))
      = some (List.zipWith (fun t b => t.take (i + 1) ++ b.drop (i + 1)) target blocks) := by
  induction target generalizing blocks with
  | nil => rfl
  | cons t ts ih =>
    cases blocks with
    | nil => simp at hlen
    | cons b bs =>
      have htl : t.length = n := ht t (List.mem_cons_self _ _)
      have hbl : b.length = n := hb b (List.mem_cons_self _ _)
      have hrest := ih bs (by simpa using hlen)
        (fun x hx => ht x (List.mem_cons_of_mem _ hx))
        (fun x hx => hb x (List.mem_cons_of_mem _ hx))
      simp only [List.zipWith_cons_cons, List.map_cons]
      unfold writeColumn?
      have hmix : i < (t.take i ++ b.drop i).length := by
        rw [List.length_append, List.length_take, List.length_drop]
        omega
      rw [if_pos hmix, hrest, Option.map_some',
        set_take_append_drop t b i (by omega) (by omega)]

theorem untransposeLoop_mix (n : Nat) (target blocks : List (List Byte))
    (hlen : target.length = blocks.length)
    (ht : ∀ t ∈ target, t.length = n) (hb : ∀ b ∈ blocks, b.length = n)
    (m i : Nat) (hm : i + m = n) :
    untransposeLoop i ((List.range m).map (fun j => target.map (fun t => t.getD (i + j) 0)))
        (List.zipWith (fun t b => t.take i ++ b.drop i) target blocks)
      = some (List.zipWith (fun t b => t.take n ++ b.drop n) target blocks) := by
  induction m generalizing i with
  | zero =>
    have : i = n := by omega
    subst this
    rfl
  | succ m ih =>
    rw [List.range_succ_eq_map, List.map_cons, List.map_map]
    unfold untransposeLoop
    rw [Nat.add_zero, writeColumn?_mix i n (by omega) target blocks hlen ht hb]
    simp only
    have hfun : ((fun j => target.map (fun t => t.getD (i + j) 0)) ∘ Nat.succ)
        = (fun j => target.map (fun t => t.getD (i + 1 + j) 0)) := by
      funext j
      simp only [Function.comp]
      rw [show i + j.succ = i + 1 + j by omega]
    rw [hfun]
    exact ih (i + 1) (by omega)

theorem zipWith_take_zero_drop_zero (target blocks : List (List Byte))
    (hlen : target.length = blocks.length) :
    List.zipWith (fun t b => t.take 0 ++ b.drop 0) target blocks = blocks := by
  induction target generalizing blocks with
  | nil =>
    cases blocks with
    | nil => rfl
    | cons b bs => simp at hlen
  | cons t ts ih =>
    cases blocks with
    | nil => simp at hlen
    | cons b bs =>
      simp only [List.zipWith_cons_cons, List.take_zero, List.drop_zero, List.nil_append,
        List.cons.injEq, true_and]
      exact ih bs (by simpa using hlen)

theorem zipWith_take_all_drop_all (n : Nat) (target blocks : List (List Byte))
    (hlen : target.length = blocks.length)
    (ht : ∀ t ∈ target, t.length = n) (hb : ∀ b ∈ blocks, b.length = n) :
    List.zipWith (fun t b => t.take n ++ b.drop n) target blocks = target := by
  induction target generalizing blocks with
  | nil => rfl
  | cons t ts ih =>
    cases blocks with
    | nil => simp at hlen
    | cons b bs =>
      have htl : t.length = n := ht t (List.mem_cons_self _ _)
      have hbl : b.length = n := hb b (List.mem_cons_self _ _)
      simp only [List.zipWith_cons_cons, List.cons.injEq]
      refine ⟨?_, ih bs (by simpa using hlen)
        (fun x hx => ht x (List.mem_cons_of_mem _ hx))
        (fun x hx => hb x (List.mem_cons_of_mem _ hx))⟩
      rw [← htl, List.take_length, htl, ← hbl, List.drop_length, List.append_nil]

theorem untransposeLoop_eq (n : Nat) (target blocks : List (List Byte))
    (hlen : target.length = blocks.length)
    (ht : ∀ t ∈ target, t.length = n) (hb : ∀ b ∈ blocks, b.length = n) :
    untransposeLoop 0 ((List.range n).map (fun j => target.map (fun t => t.getD j 0))) blocks
      = some target := by
  have h := untransposeLoop_mix n target blocks hlen ht hb n 0 (by omega)
  rw [zipWith_take_zero_drop_zero target blocks hlen,
    zipWith_take_all_drop_all n target blocks hlen ht hb] at h
  simpa using h

theorem getD_map_range (n : Nat) (f : Nat → Byte) (j : Nat) (hj : j < n) :
    ((List.range n).map f).getD j 0 = f j := by
  have h : j < ((List.range n).map f).length := by simpa using hj
  rw [List.getD_eq_getElem _ _ h]
  simp

theorem bruteForceKey_eq (F : Float32Arith) (cipherText : List Byte)
    (minKeyLength maxKeyLength L : Int) (blocks : List (List Byte)) (n : Nat) (hn : 0 < n)
    (hfind : findBlockSize F cipherText minKeyLength maxKeyLength = some (L, blocks))
    (hne : blocks ≠ []) (hlen : ∀ block ∈ blocks, block.length = n) :
    bruteForceKey F cipherText minKeyLength maxKeyLength
      = some (List.replicate cipherText.length (0 : Byte)
            ++ (blocks.map (fun block => (List.range n).map (fun i => block.getD i 0
                ^^^ groupKey (blocks.map (fun b => b.getD i 0))))).flatten,
          List.replicate n (0 : Byte)
            ++ (List.range n).map (fun i => groupKey (blocks.map (fun b => b.getD i 0)))) := by
  unfold bruteForceKey
  rw [hfind]
  simp only
  cases hb : blocks with
  | nil => exact absurd hb hne
  | cons block0 rest =>
    simp only
    rw [← hb]
    have h0 : block0.length = n := hlen block0 (by rw [hb]; exact List.mem_cons_self _ _)
    have htr := transposeLoop_eq blocks n hlen n 0 (by omega)
    simp only [Nat.zero_add] at htr
    rw [h0, htr]
    simp only
    rw [solveGroups_eq]
    simp only [List.map_map]
    rw [if_neg (by rw [List.length_map, List.length_range]; omega)]
    have hdec : (List.range n).map
          ((fun group => group.map (fun b => b ^^^ groupKey group))
            ∘ (fun j => blocks.map (fun block => block.getD j 0)))
        = (List.range n).map (fun j =>
            (blocks.map (fun block => (List.range n).map (fun i => block.getD i 0
              ^^^ groupKey (blocks.map (fun b => b.getD i 0))))).map (fun t => t.getD j 0)) := by
      apply List.map_congr_left
      intro j hj
      rw [List.mem_range] at hj
      simp only [Function.comp, List.map_map]
      apply List.map_congr_left
      intro block _
      simp only [Function.comp]
      rw [getD_map_range n _ j hj]
    rw [hdec, untransposeLoop_eq n _ blocks (by simp) (by
      intro t ht
      rw [List.mem_map] at ht
      obtain ⟨b, _, rfl⟩ := ht
      simp) hlen]
    simp only [List.length_map, List.length_range]
    rfl

theorem flatten_getD (n : Nat) (hn : 0 < n) (blocks : List (List Byte))
    (hlen : ∀ block ∈ blocks, block.length = n) (t : Nat) (ht : t < blocks.length * n) :
    blocks.flatten.getD t 0 = (blocks.getD (t / n) []).getD (t % n) 0 := by
  induction blocks generalizing t with
  | nil => simp at ht
  | cons b bs ih =>
    have hbl : b.length = n := hlen b (List.mem_cons_self _ _)
    rw [List.flatten_cons]
    by_cases hlt : t < n
    · rw [List.getD_append _ _ _ _ (by omega), Nat.div_eq_of_lt hlt, Nat.mod_eq_of_lt hlt,
        List.getD_cons_zero]
    · have hge : n ≤ t := by omega
      rw [List.getD_append_right _ _ _ _ (by omega), hbl, Nat.div_eq_sub_div hn hge,
        Nat.mod_eq_sub_mod hge, List.getD_cons_succ]
      apply ih (fun x hx => hlen x (List.mem_cons_of_mem _ hx))
      rw [List.length_cons, Nat.succ_mul] at ht
      omega

theorem getD_of_mem_range_map (blocks : List (List Byte)) (f : List Byte → List Byte) (j : Nat)
    (hj : j < blocks.length) : (blocks.map f).getD j [] = f (blocks.getD j []) := by
  have h : j < (blocks.map f).length := by simpa using hj
  rw [List.getD_eq_getElem _ _ h, List.getD_eq_getElem _ _ hj]
  simp

theorem map_eq_map_range (blocks : List (List Byte)) (f : List Byte → Byte) :
    blocks.map f = (List.range blocks.length).map (fun j => f (blocks.getD j [])) := by
  apply List.ext_getElem
  · simp
  · intro j h₁ h₂
    have hj : j < blocks.length := by simpa using h₁
    simp [List.getElem?_eq_getElem hj]

theorem length_flatten_uniform (n : Nat) (blocks : List (List Byte))
    (hlen : ∀ block ∈ blocks, block.length = n) : blocks.flatten.length = blocks.length * n := by
  induction blocks with
  | nil => simp
  | cons b bs ih =>
    rw [List.flatten_cons, List.length_append, List.length_cons,
      ih (fun x hx => hlen x (List.mem_cons_of_mem _ hx)), hlen b (List.mem_cons_self _ _),
      Nat.succ_mul, Nat.add_comm]

theorem column_eq_stream (n : Nat) (hn : 0 < n) (blocks : List (List Byte))
    (hlen : ∀ block ∈ blocks, block.length = n) (i : Nat) (hi : i < n) :
    blocks.map (fun b => b.getD i 0) = stream blocks.flatten n i := by
  have hflat := length_flatten_uniform n blocks hlen
  unfold stream
  rw [hflat, Nat.mul_div_cancel _ hn, map_eq_map_range]
  apply List.map_congr_left
  intro j hj
  rw [List.mem_range] at hj
  have ht : j * n + i < blocks.length * n := by
    have : (j + 1) * n ≤ blocks.length * n := Nat.mul_le_mul_right n hj
    rw [Nat.succ_mul] at this
    omega
  rw [flatten_getD n hn blocks hlen _ ht]
  have hdiv : (j * n + i) / n = j := by
    rw [Nat.mul_comm, Nat.mul_add_div hn, Nat.div_eq_of_lt hi, Nat.add_zero]
  have hmod : (j * n + i) % n = i := by
    rw [Nat.mul_comm, Nat.mul_add_mod, Nat.mod_eq_of_lt hi]
  rw [hdiv, hmod]

theorem bruteForceKey_spec (F : Float32Arith) (cipherText : List Byte) (hc : cipherText ≠ [])
    (minKeyLength maxKeyLength : Int) (hmin : 1 ≤ minKeyLength)
    (hmax : minKeyLength ≤ maxKeyLength) :
    ∃ (L : Nat) (blocks : List (List Byte)) (plainText key : List Byte),
      0 < L ∧ minKeyLength ≤ (L : Int) ∧ (L : Int) ≤ maxKeyLength
      ∧ findBlockSize F cipherText minKeyLength maxKeyLength = some ((L : Int), blocks)
      ∧ bruteForceKey F cipherText minKeyLength maxKeyLength = some (plainText, key)
      ∧ key = List.replicate L (0 : Byte)
          ++ (List.range L).map (fun i => groupKey (stream (zeroPadded cipherText L) L i))
      ∧ plainText = List.replicate cipherText.length (0 : Byte)
          ++ (List.range (zeroPadded cipherText L).length).map
              (fun t => (zeroPadded cipherText L).getD t 0
                ^^^ groupKey (stream (zeroPadded cipherText L) L (t % L))) := by
  obtain ⟨L, blocks, s, hfind, hL1, hL2, hsplit, _⟩ :=
    findBlockSize_spec F cipherText hc minKeyLength maxKeyLength hmin hmax
  lift L to Nat using (by omega)
  have hn : 0 < L := by omega
  obtain ⟨blocks', hsplit', hlen, hcount, hflat⟩ := splitBlocks_props cipherText L hn
  rw [hsplit] at hsplit'
  cases hsplit'
  obtain ⟨blocks'', hsplit'', hne⟩ := splitBlocks_of_nonempty cipherText hc (L : Int) (by omega)
  rw [hsplit] at hsplit''
  cases hsplit''
  have hP : blocks.flatten = zeroPadded cipherText L := hflat
  have hPlen : (zeroPadded cipherText L).length = blocks.length * L := by
    unfold zeroPadded
    rw [List.length_append, List.length_replicate, hcount]
    exact length_padded cipherText.length L hn
  have hkeys : (List.range L).map (fun i => groupKey (blocks.map (fun b => b.getD i 0)))
      = (List.range L).map (fun i => groupKey (stream (zeroPadded cipherText L) L i)) := by
    apply List.map_congr_left
    intro i hi
    rw [List.mem_range] at hi
    rw [column_eq_stream L hn blocks hlen i hi, hP]
  refine ⟨L, blocks, _, _, hn, hL1, hL2, hfind,
    bruteForceKey_eq F cipherText minKeyLength maxKeyLength L blocks L hn hfind hne hlen, ?_, ?_⟩
  · rw [hkeys]
  · congr 1
    apply List.ext_getElem
    · rw [List.length_map, List.length_range, hPlen]
      rw [length_flatten_uniform L _ (by
        intro t ht
        rw [List.mem_map] at ht
        obtain ⟨b, _, rfl⟩ := ht
        simp)]
      simp
    · intro t h₁ h₂
      have htlen : t < blocks.length * L := by
        rw [← hPlen]
        simpa using h₂
      have htarget : ∀ b ∈ blocks.map (fun block => (List.range L).map (fun i => block.getD i 0
          ^^^ groupKey (blocks.map (fun b => b.getD i 0)))), b.length = L := by
        intro t ht
        rw [List.mem_map] at ht
        obtain ⟨b, _, rfl⟩ := ht
        simp
      have hdivlt : t / L < blocks.length := by
        rw [Nat.div_lt_iff_lt_mul hn]
        exact htlen
      have hmodlt : t % L < L := Nat.mod_lt _ hn
      have hleft := flatten_getD L hn _ htarget t (by simpa using htlen)
      rw [List.getD_eq_getElem _ _ h₁] at hleft
      rw [hleft, getD_of_mem_range_map blocks _ _ hdivlt, getD_map_range L _ _ hmodlt]
      simp only [List.getElem_map, List.getElem_range]
      rw [← hP, flatten_getD L hn blocks hlen t htlen,
        column_eq_stream L hn blocks hlen _ hmodlt]

/-! ## Integer scores -/

theorem scaledParts_spec : ∀ key : Byte,
    0 < (scaledParts key).1 ∧ scoreMultiple % (scaledParts key).1 = 0
      ∧ ((distribution key ≠ 0 ∧ (scaledParts key).2 = 0
            ∧ distribution key = ((scaledParts key).1 : ℚ) / 1000000)
        ∨ (distribution key = 0 ∧ distribution (key + 0x20) ≠ 0 ∧ (scaledParts key).2 = 1
            ∧ distribution (key + 0x20) = ((scaledParts key).1 : ℚ) / 1000000)
        ∨ (distribution key = 0 ∧ distribution (key + 0x20) = 0
            ∧ scaledParts key = (500, 0))) := by
  decide!

theorem chiSquareTerm_eq_scaled (len : Nat) (hlen : 0 < len) (key : Byte) (val : Int) :
    chiSquareTerm len key val
      = ((scaledTerm len key val : Int) : ℚ)
          / ((scoreMultiple : ℚ) * 1000000 * (len : ℚ)) := by
  obtain ⟨hpos, hdvd, hcases⟩ := scaledParts_spec key
  have hn : (0 : ℚ) < (len : ℚ) := Nat.cast_pos.mpr hlen
  unfold scaledTerm chiSquareTerm chiSquareParts
  rcases hparts : scaledParts key with ⟨a, d⟩
  rw [hparts] at hpos hdvd hcases
  simp only at hpos hdvd hcases ⊢
  have ha : (0 : ℚ) < (a : ℚ) := Nat.cast_pos.mpr hpos
  have hM : scoreMultiple = a * (scoreMultiple / a) :=
    (Nat.mul_div_cancel' (Nat.dvd_of_mod_eq_zero hdvd)).symm
  have hq : 0 < scoreMultiple / a := by
    rcases Nat.eq_zero_or_pos (scoreMultiple / a) with h0 | h0
    · rw [h0, Nat.mul_zero] at hM
      exact absurd hM (by decide)
    · exact h0
  have hMq : (scoreMultiple : ℚ) = (a : ℚ) * ((scoreMultiple / a : Nat) : ℚ) := by
    exact_mod_cast hM
  rw [hMq]
  generalize scoreMultiple / a = q at hq ⊢
  have hqq : (0 : ℚ) < (q : ℚ) := Nat.cast_pos.mpr hq
  push_cast
  rcases hcases with ⟨h1, h2, h3⟩ | ⟨h1, h2, h3, h4⟩ | ⟨h1, h2, h3⟩
  · rw [if_neg h1, h3, h2]
    field_simp
    ring
  · rw [if_pos h1, if_neg h2, h4, h3]
    simp only
    field_simp
    ring
  · rw [if_pos h1, if_pos h2]
    simp only
    have ha500 : a = 500 := congrArg Prod.fst h3
    have hd0 : d = 0 := congrArg Prod.snd h3
    have hflat : (0.0005 : ℚ) = (a : ℚ) / 1000000 := by
      rw [ha500]
      norm_num
    rw [hflat, hd0]
    field_simp
    ring

theorem xor_right_injective (k : Byte) : Function.Injective (fun b : Byte => b ^^^ k) := by
  intro a b h
  have := congrArg (fun x => x ^^^ k) h
  simpa [xor_xor_cancel_byte] using this

theorem countBytes_map_xor (c : List Byte) (k : Byte) :
    countBytes (c.map (fun b => b ^^^ k))
      = (countBytes c).map (fun entry => (entry.1 ^^^ k, entry.2)) := by
  unfold countBytes
  rw [List.dedup_map_of_injective (xor_right_injective k), List.map_map, List.map_map]
  apply List.map_congr_left
  intro b _
  simp only [Function.comp]
  rw [List.count_map_of_injective c _ (xor_right_injective k) b]

theorem chiSquareEnglish_xor_eq_scaled (c : List Byte) (hc : c ≠ []) (k : Byte) :
    chiSquareEnglish (c.map (fun b => b ^^^ k))
      = ((scaledScoreXor (countBytes c) c.length k : Int) : ℚ)
          / ((scoreMultiple : ℚ) * 1000000 * (c.length : ℚ)) := by
  have hlen : 0 < c.length := List.length_pos.mpr hc
  rw [chiSquareEnglish_eq_sum, countBytes_map_xor, List.length_map, List.map_map]
  unfold scaledScoreXor
  induction countBytes c with
  | nil => simp
  | cons e es ih =>
    simp only [List.map_cons, List.sum_cons, Function.comp] at ih ⊢
    rw [ih, chiSquareTerm_eq_scaled c.length hlen]
    push_cast
    rw [add_div]

theorem scoreDenominator_pos (c : List Byte) (hc : c ≠ []) :
    (0 : ℚ) < (scoreMultiple : ℚ) * 1000000 * (c.length : ℚ) := by
  have hlen : (0 : ℚ) < (c.length : ℚ) := Nat.cast_pos.mpr (List.length_pos.mpr hc)
  have hM : (0 : ℚ) < (scoreMultiple : ℚ) := Nat.cast_pos.mpr (by decide)
  positivity

theorem groupKey_eq_of_isFirstBest (c : List Byte) (hc : c ≠ []) (key : Byte)
    (h1 : 1 ≤ key.val) (h2 : key.val ≤ 128)
    (h : isFirstBest (countBytes c) c.length key = true) : groupKey c = key := by
  obtain ⟨p, k, s, hres, hk1, hk2, hp, hs, hle, hlt⟩ := bruteForceSingleByte_spec c
  simp only at hk1 hk2 hp hs hle hlt
  have hgk : groupKey c = k := by
    unfold groupKey
    rw [hres]
  rw [hgk]
  have hden := scoreDenominator_pos c hc
  have hall : ∀ other : Byte, 1 ≤ other.val → other.val ≤ 128 →
      chiSquareEnglish (c.map (fun b => b ^^^ key)) ≤ chiSquareEnglish (c.map (fun b => b ^^^ other))
        ∧ (other.val < key.val →
          chiSquareEnglish (c.map (fun b => b ^^^ key))
            < chiSquareEnglish (c.map (fun b => b ^^^ other))) := by
    intro other ho1 ho2
    unfold isFirstBest at h
    rw [List.all_eq_true] at h
    have hj := h (other.val - 1) (List.mem_range.mpr (by omega))
    have hother : (Fin.ofNat (other.val - 1 + 1) : Byte) = other := by
      apply Fin.ext
      show (other.val - 1 + 1) % 256 = other.val
      rw [Nat.sub_add_cancel ho1]
      exact Nat.mod_eq_of_lt other.isLt
    rw [hother, Nat.sub_add_cancel ho1] at hj
    simp only [Bool.and_eq_true, decide_eq_true_eq, Bool.decide_eq_true] at hj
    rw [chiSquareEnglish_xor_eq_scaled c hc key, chiSquareEnglish_xor_eq_scaled c hc other]
    constructor
    · rw [div_le_div_iff_of_pos_right hden]
      exact_mod_cast hj.1
    · intro hlt'
      rw [div_lt_div_iff_of_pos_right hden]
      have := hj.2
      simp only [hlt', decide_True, true_implies, decide_eq_true_eq] at this
      exact_mod_cast this
  rw [hs, hp] at hle hlt
  rcases Nat.lt_trichotomy k.val key.val with hkk | hkk | hkk
  · have ha := (hall k hk1 hk2).2 hkk
    have hb := hle key h1 (by omega)
    exact absurd (lt_of_lt_of_le ha hb) (lt_irrefl _)
  · exact Fin.ext hkk
  · have ha := (hall k hk1 hk2).1
    have hb := hlt key h1 hkk
    exact absurd (lt_of_lt_of_le hb ha) (lt_irrefl _)

theorem getD_replicate_zero (n i : Nat) : (List.replicate n (0 : Byte)).getD i 0 = 0 := by
  by_cases h : i < n
  · rw [List.getD_eq_getElem _ _ (by simpa using h)]
    simp
  · rw [List.getD_eq_default _ _ (by simpa using h)]

/-- C19: for a non-empty ciphertext `c` and a range `1 ≤ minKeyLength ≤ maxKeyLength`,
with `L` the length chosen by `findBlockSize` and `P` the ciphertext zero-padded to a
multiple of `L`, `bruteForceKey` returns a key of length `2 * L` whose first `L` bytes
are `0x00` and whose byte `L + i` is the key `bruteForceSingleByte` returns for the
`i`-th transposed stream of `P`, and a plaintext of length `len(c) + len(P)` whose
first `len(c)` bytes are `0x00` and whose byte `len(c) + t` is
`P[t] XOR key[L + t mod L]` for every `t < len(P)`. -/
theorem bruteForceKey_layout (F : Float32Arith) (c : List Byte) (hc : c ≠ [])
    (minKeyLength maxKeyLength : Int) (hmin : 1 ≤ minKeyLength)
    (hmax : minKeyLength ≤ maxKeyLength) :
    ∃ (L : Nat) (blocks : List (List Byte)) (plainText key : List Byte),
      findBlockSize F c minKeyLength maxKeyLength = some ((L : Int), blocks)
      ∧ bruteForceKey F c minKeyLength maxKeyLength = some (plainText, key)
      ∧ key.length = 2 * L
      ∧ (∀ i : Nat, i < L → key.getD i 0 = 0)
      ∧ (∀ i : Nat, i < L → ∃ p s,
          bruteForceSingleByte (stream (zeroPadded c L) L i) = some (p, key.getD (L + i) 0, s))
      ∧ plainText.length = c.length + (zeroPadded c L).length
      ∧ (∀ t : Nat, t < c.length → plainText.getD t 0 = 0)
      ∧ (∀ t : Nat, t < (zeroPadded c L).length →
          plainText.getD (c.length + t) 0
            = (zeroPadded c L).getD t 0 ^^^ key.getD (L + t % L) 0) := by
  obtain ⟨L, blocks, plainText, key, hn, _, _, hfind, hres, hkey, hplain⟩ :=
    bruteForceKey_spec F c hc minKeyLength maxKeyLength hmin hmax
  have hkeyat : ∀ i : Nat, i < L →
      key.getD (L + i) 0 = groupKey (stream (zeroPadded c L) L i) := by
    intro i hi
    rw [hkey, List.getD_append_right _ _ _ _ (by simp), List.length_replicate,
      Nat.add_sub_cancel_left, getD_map_range L _ i hi]
  refine ⟨L, blocks, plainText, key, hfind, hres, ?_, ?_, ?_, ?_, ?_, ?_⟩
  · rw [hkey]
    simp
    omega
  · intro i hi
    rw [hkey, List.getD_append _ _ _ _ (by simpa using hi)]
    exact getD_replicate_zero L i
  · intro i hi
    rw [hkeyat i hi]
    exact groupKey_spec _
  · rw [hplain]
    simp
  · intro t ht
    rw [hplain, List.getD_append _ _ _ _ (by simpa using ht)]
    exact getD_replicate_zero _ t
  · intro t ht
    rw [hkeyat (t % L) (Nat.mod_lt _ hn), hplain,
      List.getD_append_right _ _ _ _ (by simp), List.length_replicate,
      Nat.add_sub_cancel_left]
    have h := List.getD_eq_getElem ((List.range (zeroPadded c L).length).map
      (fun t => (zeroPadded c L).getD t 0 ^^^ groupKey (stream (zeroPadded c L) L (t % L)))) 0
      (show t < _ by simpa using ht)
    rw [h]
    simp

/-- Witness of C19 at the ciphertext `"this is a test"` and the range `2..5`. -/
theorem bruteForceKey_layout_witness :
    ∃ (L : Nat) (blocks : List (List Byte)) (plainText key : List Byte),
      findBlockSize exactArith thisIsATest 2 5 = some ((L : Int), blocks)
      ∧ bruteForceKey exactArith thisIsATest 2 5 = some (plainText, key)
      ∧ key.length = 2 * L
      ∧ (∀ i : Nat, i < L → key.getD i 0 = 0)
      ∧ (∀ i : Nat, i < L → ∃ p s,
          bruteForceSingleByte (stream (zeroPadded thisIsATest L) L i)
            = some (p, key.getD (L + i) 0, s))
      ∧ plainText.length = thisIsATest.length + (zeroPadded thisIsATest L).length
      ∧ (∀ t : Nat, t < thisIsATest.length → plainText.getD t 0 = 0)
      ∧ (∀ t : Nat, t < (zeroPadded thisIsATest L).length →
          plainText.getD (thisIsATest.length + t) 0
            = (zeroPadded thisIsATest L).getD t 0 ^^^ key.getD (L + t % L) 0) :=
  bruteForceKey_layout exactArith thisIsATest (by decide) 2 5 (by decide) (by decide)


/-! ## The reference scenario -/

theorem groupKey_stream_hexAns (i : Nat) (hi : i < 3) :
    groupKey (stream (zeroPadded hexAns 3) 3 i) = ice.getD i 0 := by
  have h0 : stream (zeroPadded hexAns 3) 3 0
      = [11, 39, 46, 44, 105, 105, 60, 32, 61, 60, 34, 39, 39, 43, 67, 46, 42, 51, 62, 39, 105,
          40, 40, 48, 40] := by decide
  have h1 : stream (zeroPadded hexAns 3) 3 1
      = [54, 42, 99, 46, 42, 58, 99, 45, 99, 42, 99, 39, 42, 47, 10, 44, 49, 58, 43, 99, 43,
          49, 99, 46, 47] := by decide
  have h2 : stream (zeroPadded hexAns 3) 3 2
      = [55, 43, 98, 105, 35, 42, 36, 98, 52, 38, 36, 101, 40, 32, 101, 101, 36, 101, 32, 12,
          32, 101, 38, 39, 0] := by decide
  interval_cases i
  · rw [h0]
    apply groupKey_eq_of_isFirstBest _ (by decide) 73 (by decide) (by decide)
    have hh : countBytes [11, 39, 46, 44, 105, 105, 60, 32, 61, 60, 34, 39, 39, 43, 67, 46, 42,
        51, 62, 39, 105, 40, 40, 48, 40]
        = [(11, 1), (44, 1), (32, 1), (61, 1), (60, 2), (34, 1), (43, 1), (67, 1), (46, 2),
            (42, 1), (51, 1), (62, 1), (39, 4), (105, 3), (48, 1), (40, 3)] := by decide
    rw [hh]
    decide!
  · rw [h1]
    apply groupKey_eq_of_isFirstBest _ (by decide) 67 (by decide) (by decide)
    have hh : countBytes [54, 42, 99, 46, 42, 58, 99, 45, 99, 42, 99, 39, 42, 47, 10, 44, 49,
        58, 43, 99, 43, 49, 99, 46, 47]
        = [(54, 1), (45, 1), (39, 1), (42, 4), (10, 1), (44, 1), (58, 2), (43, 2), (49, 2),
            (99, 6), (46, 2), (47, 2)] := by decide
    rw [hh]
    decide!
  · rw [h2]
    apply groupKey_eq_of_isFirstBest _ (by decide) 69 (by decide) (by decide)
    have hh : countBytes [55, 43, 98, 105, 35, 42, 36, 98, 52, 38, 36, 101, 40, 32, 101, 101,
        36, 101, 32, 12, 32, 101, 38, 39, 0]
        = [(55, 1), (43, 1), (105, 1), (35, 1), (42, 1), (98, 2), (52, 1), (40, 1), (36, 3),
            (12, 1), (32, 3), (101, 5), (38, 2), (39, 1), (0, 1)] := by decide
    rw [hh]
    decide!

theorem bruteForceKey_hexAns (F : Float32Arith) (minKeyLength maxKeyLength : Int)
    (hmin : 1 ≤ minKeyLength) (hmax : minKeyLength ≤ maxKeyLength)
    (hsel : ∃ blocks, findBlockSize F hexAns minKeyLength maxKeyLength = some (3, blocks)) :
    bruteForceKey F hexAns minKeyLength maxKeyLength
      = some (List.replicate 74 (0 : Byte) ++ (burning ++ [0x45]), [0, 0, 0] ++ ice) := by
  obtain ⟨L, blocks, plainText, key, hn, _, _, hfind, hres, hkey, hplain⟩ :=
    bruteForceKey_spec F hexAns (by decide) minKeyLength maxKeyLength hmin hmax
  obtain ⟨blocks', hsel'⟩ := hsel
  rw [hfind] at hsel'
  have hL : L = 3 := by
    have := congrArg Prod.fst (Option.some.inj hsel')
    simp only at this
    exact_mod_cast this
  subst hL
  have hkeys : (List.range 3).map (fun i => groupKey (stream (zeroPadded hexAns 3) 3 i))
      = (List.range 3).map (fun i => ice.getD i 0) := by
    apply List.map_congr_left
    intro i hi
    exact groupKey_stream_hexAns i (List.mem_range.mp hi)
  have hplains : (List.range (zeroPadded hexAns 3).length).map
        (fun t => (zeroPadded hexAns 3).getD t 0
          ^^^ groupKey (stream (zeroPadded hexAns 3) 3 (t % 3)))
      = (List.range (zeroPadded hexAns 3).length).map
        (fun t => (zeroPadded hexAns 3).getD t 0 ^^^ ice.getD (t % 3) 0) := by
    apply List.map_congr_left
    intro t _
    rw [groupKey_stream_hexAns (t % 3) (Nat.mod_lt _ (by decide))]
  rw [hres, hkey, hplain, hkeys, hplains]
  decide

theorem candidateScore_exact_nonneg (cipherText : List Byte) (hc : cipherText ≠ []) (L : Int)
    (hL : 1 ≤ L) (s : ℚ) (hs : candidateScore exactArith cipherText L = some s) : 0 ≤ s := by
  lift L to Nat using (by omega)
  have hn : 0 < L := by omega
  obtain ⟨blocks, hsplit, hlen, _, _⟩ := splitBlocks_props cipherText L hn
  obtain ⟨blocks', hsplit', hne⟩ := splitBlocks_of_nonempty cipherText hc (L : Int) hL
  rw [hsplit] at hsplit'
  cases hsplit'
  have havg := checkAvgHamming_eq blocks hne 10 (by decide)
  have h0 := sampledSum_nonneg blocks hne L hlen 10
  unfold candidateScore blockScore at hs
  rw [hsplit, Option.some_bind, show (10 : Int) = ((10 : Nat) : Int) from rfl, havg] at hs
  simp only [Option.map_some', Option.some.injEq, exactArith] at hs
  rw [← hs]
  have hq : 0 ≤ Int.tdiv (sampledSum blocks 10) ((10 : Nat) : Int) :=
    Int.tdiv_nonneg h0 (by decide)
  have hq' : (0 : ℚ) ≤ ((Int.tdiv (sampledSum blocks 10) ((10 : Nat) : Int) : Int) : ℚ) := by
    exact_mod_cast hq
  have hL' : (0 : ℚ) ≤ (((L : Int) : ℚ)) := by positivity
  exact div_nonneg hq' hL'

theorem candidateScore_of_few_blocks (F : Float32Arith) (cipherText : List Byte)
    (hc : cipherText ≠ []) (L : Nat) (hn : 0 < L)
    (hfew : (cipherText.length + (L - cipherText.length % L) % L) / L < 10) :
    candidateScore F cipherText (L : Int) = some (F.div (F.ofInt 0) (F.ofInt (L : Int))) := by
  obtain ⟨blocks, hsplit, _, hcount, _⟩ := splitBlocks_props cipherText L hn
  obtain ⟨blocks', hsplit', hne⟩ := splitBlocks_of_nonempty cipherText hc (L : Int) (by omega)
  rw [hsplit] at hsplit'
  cases hsplit'
  have havg : checkAvgHamming blocks 10 = some 0 :=
    checkAvgHamming_of_few_blocks blocks hne 10 (by decide) (by rw [hcount]; exact hfew)
  unfold candidateScore blockScore
  rw [hsplit, Option.some_bind, havg]
  rfl

theorem findBlockSize_selects_max (cipherText : List Byte) (hc : cipherText ≠ [])
    (minKeyLength : Int) (maxKeyLength : Nat) (hmin : 1 ≤ minKeyLength)
    (hmax : minKeyLength ≤ (maxKeyLength : Int))
    (hfew : (cipherText.length + (maxKeyLength - cipherText.length % maxKeyLength)
      % maxKeyLength) / maxKeyLength < 10) :
    ∃ blocks, findBlockSize exactArith cipherText minKeyLength maxKeyLength
      = some ((maxKeyLength : Int), blocks) := by
  obtain ⟨L, blocks, s, hfind, hL1, hL2, _, hscore, _, hlater⟩ :=
    findBlockSize_spec exactArith cipherText hc minKeyLength maxKeyLength hmin hmax
  have hs0 := candidateScore_exact_nonneg cipherText hc L (by omega) s hscore
  rcases (show L < (maxKeyLength : Int) ∨ L = (maxKeyLength : Int) by omega) with hlt | heq
  · obtain ⟨s', hs', hlt'⟩ := hlater maxKeyLength hlt (le_refl _)
    rw [candidateScore_of_few_blocks exactArith cipherText hc maxKeyLength (by omega) hfew]
      at hs'
    simp only [exactArith, Option.some.injEq, Int.cast_zero, zero_div] at hs'
    rw [← hs'] at hlt'
    exact absurd (lt_of_le_of_lt hs0 hlt') (lt_irrefl _)
  · rw [heq] at hfind
    exact ⟨blocks, hfind⟩

theorem findBlockSize_hexAns_three :
    ∃ blocks, findBlockSize exactArith hexAns 3 3 = some (3, blocks) := by
  obtain ⟨L, blocks, s, hfind, hL1, hL2, _⟩ :=
    findBlockSize_spec exactArith hexAns (by decide) 3 3 (by decide) (by decide)
  have : L = 3 := by omega
  rw [this] at hfind
  exact ⟨blocks, hfind⟩

/-- C12 (as stated) fails. For the reference ciphertext and the range `3..3`
`bruteForceKey` returns the 6-byte key `00 00 00 49 43 45`, not the 3 bytes `"ICE"`,
and a plaintext of 149 bytes, not the 74-byte text. For the range `2..40`, which also
covers 3, `findBlockSize` selects the length 40 and the key has 80 bytes. -/
theorem bruteForceKey_reference_not_recovered :
    hexAns = (List.range 74).map (fun i => burning.getD i 0 ^^^ ice.getD (i % 3) 0)
      ∧ (∃ plainText key, bruteForceKey exactArith hexAns 3 3 = some (plainText, key)
          ∧ key = [0, 0, 0, 73, 67, 69] ∧ key ≠ ice
          ∧ plainText.length = 149 ∧ plainText ≠ burning)
      ∧ (∃ blocks plainText key, findBlockSize exactArith hexAns 2 40 = some (40, blocks)
          ∧ bruteForceKey exactArith hexAns 2 40 = some (plainText, key)
          ∧ key.length = 80 ∧ key ≠ ice ∧ plainText ≠ burning) := by
  refine ⟨by decide, ?_, ?_⟩
  · refine ⟨_, _, bruteForceKey_hexAns exactArith 3 3 (by decide) (by decide)
      findBlockSize_hexAns_three, by decide, by decide, by decide, by decide⟩
  · obtain ⟨blocks, hsel⟩ := findBlockSize_selects_max hexAns (by decide) 2 40 (by decide)
      (by decide) (by decide)
    simp only [Nat.cast_ofNat] at hsel
    obtain ⟨L, blocks', plainText, key, hn, _, _, hfind, hres, hkey, hplain⟩ :=
      bruteForceKey_spec exactArith hexAns (by decide) 2 40 (by decide) (by decide)
    have hsel' := hsel
    rw [hfind] at hsel'
    have hL : L = 40 := by
      have := congrArg Prod.fst (Option.some.inj hsel')
      simp only at this
      exact_mod_cast this
    subst hL
    have hklen : key.length = 80 := by
      rw [hkey]
      simp
    have hplen : plainText.length = 154 := by
      rw [hplain]
      simp only [List.length_append, List.length_replicate, List.length_map, List.length_range]
      decide
    refine ⟨blocks, plainText, key, hsel, hres, hklen, ?_, ?_⟩
    · intro h
      rw [h] at hklen
      exact absurd hklen (by decide)
    · intro h
      rw [h] at hplen
      exact absurd hplen (by decide)

/-- C12 (amended): for the 74-byte ciphertext obtained by XORing the reference text with
the repeating key `"ICE"`, and for a key-length range `1 ≤ minKeyLength ≤ maxKeyLength`
for which `findBlockSize` selects the length 3 (such as `3..3`), `bruteForceKey`
returns a key whose last 3 bytes are `"ICE"` and a plaintext whose last 75 bytes are
the original 74-byte text followed by the byte `0x45`, the decoding of the zero byte
that pads the ciphertext to a multiple of 3. -/
theorem bruteForceKey_reference (F : Float32Arith) (minKeyLength maxKeyLength : Int)
    (hmin : 1 ≤ minKeyLength) (hmax : minKeyLength ≤ maxKeyLength)
    (hsel : ∃ blocks, findBlockSize F hexAns minKeyLength maxKeyLength = some (3, blocks)) :
    hexAns = (List.range 74).map (fun i => burning.getD i 0 ^^^ ice.getD (i % 3) 0)
      ∧ ∃ plainText key, bruteForceKey F hexAns minKeyLength maxKeyLength
          = some (plainText, key)
        ∧ key.drop (key.length - 3) = ice
        ∧ plainText.drop (plainText.length - 75) = burning ++ [0x45] := by
  refine ⟨by decide, _, _,
    bruteForceKey_hexAns F minKeyLength maxKeyLength hmin hmax hsel, by decide, by decide⟩

/-- Witness of C12 (amended) at the range `3..3`, in exact arithmetic. -/
theorem bruteForceKey_reference_witness :
    ∃ plainText key, bruteForceKey exactArith hexAns 3 3 = some (plainText, key)
      ∧ key.drop (key.length - 3) = ice
      ∧ plainText.drop (plainText.length - 75) = burning ++ [0x45] :=
  (bruteForceKey_reference exactArith 3 3 (by decide) (by decide)
    findBlockSize_hexAns_three).2

/-! ## Scores that depend on the call -/

theorem groupKey_tieStream : groupKey tieStream = 28 := by
  apply groupKey_eq_of_isFirstBest tieStream (by decide) 28 (by decide) (by decide)
  have hh : countBytes tieStream = [(139, 1), (89, 1), (142, 1), (125, 1), (137, 1)] := by
    decide
  have hl : tieStream.length = 5 := by decide
  rw [hh, hl]
  decide!

theorem chiSquareEnglish_tieStream_le (other : Byte) (h1 : 1 ≤ other.val)
    (h2 : other.val ≤ 128) :
    chiSquareEnglish (tieStream.map (fun b => b ^^^ 28))
      ≤ chiSquareEnglish (tieStream.map (fun b => b ^^^ other)) := by
  obtain ⟨p, k, s, hres, _, _, hp, hs, hle, _⟩ := bruteForceSingleByte_spec tieStream
  simp only at hp hs hle
  have hk : k = 28 := by
    have hg := groupKey_tieStream
    unfold groupKey at hg
    rw [hres] at hg
    exact hg
  rw [hs, hp, hk] at hle
  exact hle other h1 (by omega)

theorem chiSquareEnglish_tieStream_tie :
    chiSquareEnglish (tieStream.map (fun b => b ^^^ 28))
      = chiSquareEnglish (tieStream.map (fun b => b ^^^ 56)) := by
  decide!

/-- The key `bruteForceSingleByte` returns is not determined by the stream alone: for
the stream `8b 59 8e 7d 89` the keys `0x1c` and `0x38` have the same lowest exact
score; with exact scores the key returned is `0x1c`, and when the call for `0x38`
returns `1/8192` less than the exact sum the key returned is `0x38`. -/
theorem bruteForceSingleByteWith_tieStream :
    (∃ p s, bruteForceSingleByteWith (fun _ => chiSquareEnglish) tieStream = some (p, 28, s))
      ∧ (∃ p s, bruteForceSingleByteWith lateScore tieStream = some (p, 56, s))
      ∧ chiSquareEnglish (tieStream.map (fun b => b ^^^ 28))
          = chiSquareEnglish (tieStream.map (fun b => b ^^^ 56))
      ∧ (∀ (n : Nat) (text : List Byte), |lateScore n text - chiSquareEnglish text| ≤ 1 / 8192) := by
  refine ⟨?_, ?_, chiSquareEnglish_tieStream_tie, ?_⟩
  · obtain ⟨p, k, s, hres, _⟩ := bruteForceSingleByte_spec tieStream
    have hk : k = 28 := by
      have hg := groupKey_tieStream
      unfold groupKey at hg
      rw [hres] at hg
      exact hg
    rw [hk] at hres
    exact ⟨p, s, hres⟩
  · have h56 : lateScore (56 : Byte).val (tieStream.map (fun b => b ^^^ 56))
        = chiSquareEnglish (tieStream.map (fun b => b ^^^ 28)) - 1 / 8192 := by
      rw [chiSquareEnglish_tieStream_tie]
      rfl
    have hother : ∀ other : Byte, 1 ≤ other.val → other.val ≤ 128 →
        chiSquareEnglish (tieStream.map (fun b => b ^^^ 28)) - 1 / 8192
          ≤ lateScore other.val (tieStream.map (fun b => b ^^^ other)) := by
      intro other h1 h2
      have hle := chiSquareEnglish_tieStream_le other h1 h2
      unfold lateScore
      split_ifs
      · linarith
      · linarith
    have hstrict : ∀ other : Byte, 1 ≤ other.val → other.val ≠ 56 →  other.val ≤ 128 →
        chiSquareEnglish (tieStream.map (fun b => b ^^^ 28)) - 1 / 8192
          < lateScore other.val (tieStream.map (fun b => b ^^^ other)) := by
      intro other h1 hne h2
      have hle := chiSquareEnglish_tieStream_le other h1 h2
      unfold lateScore
      rw [if_neg hne]
      linarith
    apply bruteForceSingleByteWith_key_eq lateScore tieStream 56 (by decide) (by decide)
    · right
      rw [h56]
      have hle := chiSquareEnglish_tieStream_le 0x01 (by decide) (by decide)
      have h0 : lateScore 0 (tieStream.map (fun b => b ^^^ 0x01))
          = chiSquareEnglish (tieStream.map (fun b => b ^^^ 0x01)) := rfl
      rw [h0]
      linarith
    · intro other h1 h2
      rw [h56]
      exact hother other h1 h2
    · intro other h1 h2
      rw [h56]
      have h56v : (56 : Byte).val = 56 := rfl
      exact hstrict other h1 (by omega) (by omega)
  · intro n text
    unfold lateScore
    split_ifs
    · rw [sub_sub_cancel_left, abs_neg, abs_of_nonneg (by norm_num)]
    · rw [sub_self, abs_zero]
      norm_num

end CryptoPals
